import Mathlib

/-! Verification of the orchestration core of the nw_wrld live
visual-performance runtime (src/projector/Projector.js and
src/shared/utils/methodOptions.js), as a shallow embedding in Lean 4.

Modelling conventions:
* JavaScript numbers that the data model declares as integers (matrix rows,
  columns, z-indices, instance counts) are modelled as `Nat`; all other
  numeric values (option values, random draws, grid geometry percentages)
  are modelled as `ℚ`.  `Math.random()` is modelled as an external stream of
  rationals in `[0, 1)` threaded through the state.
* JavaScript objects used as string-keyed maps are modelled as association
  lists (`List (String × _)`), preserving insertion order where the code
  observes it.
* Exceptions are modelled with an explicit `Option Unit` error component:
  `none` means normal completion, `some ()` means a thrown error escaped the
  modelled operation.  A `try/catch` in the source corresponds to handling
  that component locally instead of propagating it.
* Asynchronous suspension points (`await`) are linearised in program
  submission order; the system is single-threaded with cooperative
  scheduling, so this is a faithful serialisation for the intra-batch
  ordering properties proved here.
* Promise settlement for the lazy module loader is modelled in its settled
  state: the class cache retains exactly the successfully resolved classes
  (a rejected loader deletes its own cache entry inside its catch handler
  before the rejection is observable by later calls).
* DOM interaction is reduced to what the control flow observes: the presence
  of the `.modules` container is a boolean state field, and the geometry
  written into each cell element's style is carried on the created cells.
-/

namespace NW

/-- A JavaScript value as far as the orchestration core inspects it:
numbers, strings, booleans, the array form of the matrix option
(`[rows, cols]`, integer entries per the data model), the object form of the
matrix option (`{rows, cols, excludedCells}`), null/undefined. -/
inductive JVal where
  | num (q : ℚ)
  | str (s : String)
  | boolVal (b : Bool)
  | natArr (l : List ℕ)
  | mObj (rows : Option ℕ) (cols : Option ℕ) (excludedCells : Option (List String))
  | nullV
  deriving DecidableEq

/-- Truthiness of a modelled JavaScript value. -/
def jsTruthy : JVal → Bool
  | .num q => q ≠ 0
  | .str s => s ≠ ""
  | .boolVal b => b
  | .natArr _ => true
  | .mObj _ _ _ => true
  | .nullV => false

/-- One OptionValue of a MethodCall: `{name, value, randomRange?, randomValues?}`.
`randomRange` is modelled as an optional list of JS values so that the
source's `Array.isArray(rr) && rr.length === 2` check is expressible. -/
structure OptionEntry where
  name : String
  value : JVal
  randomRange : Option (List JVal) := none
  randomValues : Option (List JVal) := none
  deriving DecidableEq

/-- One MethodCall: `{name, options}`. -/
structure MethodCall where
  name : String
  options : List OptionEntry
  deriving DecidableEq

/-- Option resolution as implemented inline in `Projector.executeMethods`
(Projector.js lines 744-767), for a single option entry, given the
`Math.random()` draw `r` used by the randomized branch.  The swap of an
inverted range, the non-numeric fallback to the static value, the integer
sampling `floor(r * (max - min + 1)) + min` and the float sampling
`r * (max - min) + min` all follow the source. -/
def resolveOptionValue (e : OptionEntry) (r : ℚ) : JVal :=
  match e.randomRange with
  | some [JVal.num a, JVal.num b] =>
      -- typeof checks passed: both bounds numeric
      let mn := if a > b then b else a
      let mx := if a > b then a else b
      if mn.den = 1 ∧ mx.den = 1 then
        JVal.num (((⌊r * (mx - mn + 1)⌋ : ℤ) : ℚ) + mn)
      else
        JVal.num (r * (mx - mn) + mn)
  | some [_, _] =>
      -- a two-element range with a non-numeric bound: warn and fall back
      e.value
  | some _ => e.value
  | none => e.value

/-- Whether resolving this entry consumes a `Math.random()` draw (the source
calls `Math.random()` only on the fully numeric two-element range branch). -/
def consumesDraw (e : OptionEntry) : Bool :=
  match e.randomRange with
  | some [JVal.num _, JVal.num _] => true
  | _ => false

/-- The `"row-col"` key of a grid cell, as built by string interpolation in
`Projector.updateMatrix`. -/
def cellKey (row col : ℕ) : String :=
  toString row ++ "-" ++ toString col

/-- One retained grid cell together with the geometry written into its
element's style by `Projector.updateMatrix` (percent units). -/
structure Cell where
  row : ℕ
  col : ℕ
  widthPct : ℚ
  heightPct : ℚ
  topPct : ℚ
  leftPct : ℚ
  zIndex : ℕ
  borderOn : Bool
  deriving DecidableEq

/-- The grid cell loop of `Projector.updateMatrix` (lines 904-933): rows
outer, columns inner, both 1-based, skipping every cell whose `"row-col"`
key occurs in `excludedCells`; each retained cell gets width `100/cols`,
height `100/rows`, top `(100/rows)*(row-1)`, left `(100/cols)*(col-1)`. -/
def matrixCells (rows cols : ℕ) (excludedCells : List String) (zIndex : ℕ)
    (borderOn : Bool) : List Cell :=
  (List.range' 1 rows).flatMap fun row =>
    (List.range' 1 cols).filterMap fun col =>
      if excludedCells.contains (cellKey row col) then none
      else some
        { row := row
          col := col
          widthPct := 100 / (cols : ℚ)
          heightPct := 100 / (rows : ℚ)
          topPct := (100 / (rows : ℚ)) * ((row : ℚ) - 1)
          leftPct := (100 / (cols : ℚ)) * ((col : ℚ) - 1)
          zIndex := zIndex
          borderOn := borderOn }

/-- All `(row, col)` pairs of the `rows × cols` grid, rows outer, 1-based:
the valid cells of the matrix specification. -/
def validCells (rows cols : ℕ) : List (ℕ × ℕ) :=
  (List.range' 1 rows).flatMap fun row =>
    (List.range' 1 cols).map fun col => (row, col)

/-- The number of valid cells whose key is listed in `excludedCells`:
the size of the intersection of the excluded-cell set with the valid cell
keys. -/
def excludedValidCount (rows cols : ℕ) (excludedCells : List String) : ℕ :=
  ((validCells rows cols).filter fun p => excludedCells.contains (cellKey p.1 p.2)).length

lemma filterMap_if_length {α β : Type} (p : α → Bool) (g : α → β) (l : List α) :
    (l.filterMap fun x => if p x then none else some (g x)).length
      + (l.filter p).length = l.length := by
  induction l with
  | nil => simp
  | cons x xs ih =>
      by_cases h : p x = true
      · simp only [List.filterMap_cons, List.filter_cons, h, if_true,
          List.length_cons]
        omega
      · rw [Bool.not_eq_true] at h
        simp only [List.filterMap_cons, List.filter_cons, h, Bool.false_eq_true,
          if_false, List.length_cons]
        omega

lemma flatMap_rows_length_add {α : Type} (cols : ℕ) (E : List String)
    (mk : ℕ → ℕ → α) (L : List ℕ) :
    ((L.flatMap fun row => (List.range' 1 cols).filterMap fun col =>
        if E.contains (cellKey row col) then none else some (mk row col)).length)
      + (((L.flatMap fun row => (List.range' 1 cols).map fun col => (row, col)).filter
          fun p => E.contains (cellKey p.1 p.2)).length)
      = L.length * cols := by
  induction L with
  | nil => simp
  | cons r rs ih =>
      simp only [List.flatMap_cons, List.filter_append, List.length_append,
        List.length_cons]
      have hrow := filterMap_if_length
        (fun col => E.contains (cellKey r col)) (mk r) (List.range' 1 cols)
      have hfm : ((List.range' 1 cols).map fun col => ((r, col) : ℕ × ℕ)).filter
            (fun p => E.contains (cellKey p.1 p.2))
          = ((List.range' 1 cols).filter fun col => E.contains (cellKey r col)).map
              (fun col => (r, col)) := by
        rw [List.filter_map]
        rfl
      rw [hfm, List.length_map]
      rw [List.length_range'] at hrow
      have : (rs.length + 1) * cols = rs.length * cols + cols := by ring
      omega

lemma matrixCells_length_add (rows cols : ℕ) (E : List String) (z : ℕ) (b : Bool) :
    (matrixCells rows cols E z b).length + excludedValidCount rows cols E
      = rows * cols := by
  unfold matrixCells excludedValidCount validCells
  have h := flatMap_rows_length_add cols E
    (fun row col =>
      ({ row := row, col := col, widthPct := 100 / (cols : ℚ),
         heightPct := 100 / (rows : ℚ),
         topPct := (100 / (rows : ℚ)) * ((row : ℚ) - 1),
         leftPct := (100 / (cols : ℚ)) * ((col : ℚ) - 1),
         zIndex := z, borderOn := b } : Cell))
    (List.range' 1 rows)
  rw [List.length_range'] at h
  exact h

lemma matrixCells_geometry (rows cols : ℕ) (E : List String) (z : ℕ) (b : Bool) :
    ∀ c ∈ matrixCells rows cols E z b,
      c.widthPct = 100 / (cols : ℚ) ∧ c.heightPct = 100 / (rows : ℚ) ∧
      c.topPct = (100 / (rows : ℚ)) * ((c.row : ℚ) - 1) ∧
      c.leftPct = (100 / (cols : ℚ)) * ((c.col : ℚ) - 1) := by
  intro c hc
  unfold matrixCells at hc
  obtain ⟨row, hrow, hc⟩ := List.mem_flatMap.mp hc
  obtain ⟨col, hcol, hc⟩ := List.mem_filterMap.mp hc
  by_cases h : E.contains (cellKey row col) = true
  · rw [if_pos h] at hc
    cases hc
  · rw [if_neg h] at hc
    rw [Option.some_inj] at hc
    subst hc
    exact ⟨rfl, rfl, rfl, rfl⟩

/-- Association-list lookup of a string-keyed JavaScript object. -/
def assocLookup {α : Type} (m : List (String × α)) (k : String) : Option α :=
  (m.find? fun p => p.1 = k).map Prod.snd

/-- Association-list update of a string-keyed JavaScript object
(assignment `obj[k] = v`): replaces the binding in place, or appends a new
binding at the end. -/
def assocSet {α : Type} : List (String × α) → String → α → List (String × α)
  | [], k, v => [(k, v)]
  | (k0, v0) :: rest, k, v =>
      if k0 = k then (k0, v) :: rest else (k0, v0) :: assocSet rest k v

/-- Behaviour of one method exposed by a live module instance: a normal
asynchronous function, or one that throws when invoked. -/
inductive MethodImpl where
  | normal
  | throwing
  deriving DecidableEq

/-- One live module instance: its identity tag, the method table the runtime
probes with `isFunction(instance[name])` (including `destroy`), and the grid
cell it was bound to at construction. -/
structure Instance where
  tag : ℕ
  methods : List (String × MethodImpl)
  cell : Cell
  deriving DecidableEq

/-- The method slot of an instance under a given name; `none` models
`instance[name]` not being a function. -/
def methodBehavior (inst : Instance) (name : String) : Option MethodImpl :=
  assocLookup inst.methods name

/-- Whether the instance exposes a function under this name. -/
def exposes (inst : Instance) (name : String) : Bool :=
  (methodBehavior inst name).isSome

/-- A module class as resolved by the Module Registry; constructing an
instance copies the prototype method table. -/
structure ModuleClass where
  proto : List (String × MethodImpl)
  deriving DecidableEq

/-- PlacementData of one placement: the constructor-method batch and the map
from channel number to method list (`none` models an absent `methods`
field). -/
structure PlacementData where
  ctorMethods : Option (List MethodCall)
  methods : Option (List (String × List MethodCall))
  deriving DecidableEq

/-- One placement in a track's module list: `{id, type}`. -/
structure ModuleRef where
  id : String
  type : String
  deriving DecidableEq

/-- A track: name, ordered placements, and per-placement data. -/
structure Track where
  name : String
  modules : List ModuleRef
  modulesData : List (String × PlacementData)
  deriving DecidableEq

/-- One entry of the Channel Handler Map: `{instanceId, moduleType}`. -/
structure Handler where
  instanceId : String
  moduleType : String
  deriving DecidableEq

/-- The Channel Handler Map, an insertion-ordered string-keyed object of
target lists. -/
abbrev HandlerMap := List (String × List Handler)

/-- The bucket of a channel in the handler map (`map[ch]`), read as a list
(`map[ch] || []`). -/
def hmBucket (m : HandlerMap) (ch : String) : List Handler :=
  (assocLookup m ch).getD []

/-- The `if (!map[ch]) map[ch] = []; map[ch].push(h)` step of
`buildChannelHandlerMap`. -/
def hmPush : HandlerMap → String → Handler → HandlerMap
  | [], ch, h => [(ch, [h])]
  | (k, v) :: rest, ch, h =>
      if k = ch then (k, v ++ [h]) :: rest else (k, v) :: hmPush rest ch h

/-- The inner loop of `buildChannelHandlerMap` over the channel entries of
one placement's `methods` object: non-empty method lists push the
placement's handler onto their channel's bucket. -/
def pushChannelEntries (mp : HandlerMap) (h : Handler)
    (entries : List (String × List MethodCall)) : HandlerMap :=
  entries.foldl
    (fun mp2 e => if e.2.length = 0 then mp2 else hmPush mp2 e.1 h)
    mp

/-- `Projector.buildChannelHandlerMap` (lines 682-702): for every placement
in track order, for every channel entry of its `methods` object, append
`{instanceId, moduleType}` to that channel's bucket when the method list is
a non-empty array. -/
def buildChannelHandlerMap (track : Track) : HandlerMap :=
  track.modules.foldl
    (fun mp m =>
      match assocLookup track.modulesData m.id with
      | none => mp
      | some pd =>
          match pd.methods with
          | none => mp
          | some entries => pushChannelEntries mp ⟨m.id, m.type⟩ entries)
    []

/-- The full state of the `Projector` singleton as observed by the
orchestration core, together with the modelled external environment: the
loaded configuration (`userData`), whether the `.modules` DOM container is
present, the dynamic-import environment (which module types resolve, and to
what), and the `Math.random()` stream with its consumption index. -/
structure PState where
  userData : List Track
  activeTrack : Option Track
  activeModules : List (String × List Instance)
  activeChannelHandlers : HandlerMap
  isDeactivating : Bool
  moduleClassCache : List (String × ModuleClass)
  containerPresent : Bool
  importEnv : List (String × ModuleClass)
  importAttempts : ℕ
  randStream : ℕ → ℚ
  randIdx : ℕ
  nextTag : ℕ

/-- Observable events of the orchestration core: logs, destroy calls,
materializations and method invocations, in execution order. -/
inductive Event where
  | trackNotFound (name : String)
  | loadError (moduleType : String)
  | typeNotFound (instanceId : String)
  | destroyed (tag : ℕ)
  | destroyErrorLogged (instanceId : String) (tag : ℕ)
  | matrixStart (instanceId : String) (options : List OptionEntry)
  | materialized (instanceId : String) (count : ℕ)
  | invoked (tag : ℕ) (method : String) (bag : List (String × JVal))
  | warnMissing (tag : ℕ) (method : String)
  deriving DecidableEq

/-- Outcome of `loadModuleClass`: the source returns `null` for a falsy
module type, a class on success, and rejects on import failure. -/
inductive LoadOutcome where
  | loadedNone
  | loaded (cls : ModuleClass)
  | failed
  deriving DecidableEq

/-- Result of the dynamic `import("./modules/<type>.js")` in the modelled
environment: resolves to the class registered for the type, rejects
otherwise. -/
def importOf (st : PState) (moduleType : String) : Option ModuleClass :=
  assocLookup st.importEnv moduleType

/-- `Projector.loadModuleClass` (lines 63-81) in its settled-promise
semantics, with the import outcome passed explicitly: a falsy module type
returns null; a cache hit returns the cached class; otherwise the import is
attempted (counted in `importAttempts`).  A successful load is cached; a
failed loader deletes its own freshly set cache entry inside its catch
handler before rethrowing, so the cache is left without the entry. -/
def loadModuleClass (st : PState) (moduleType : String)
    (importResult : Option ModuleClass) : PState × LoadOutcome :=
  if moduleType = "" then (st, .loadedNone)
  else
    match assocLookup st.moduleClassCache moduleType with
    | some cls => (st, .loaded cls)
    | none =>
        let st1 := { st with importAttempts := st.importAttempts + 1 }
        match importResult with
        | some cls =>
            ({ st1 with
                moduleClassCache := assocSet st1.moduleClassCache moduleType cls },
             .loaded cls)
        | none => (st1, .failed)

/-- The raw `instance.destroy()` call: emits its event on success, throws
otherwise. -/
def rawDestroy (inst : Instance) : List Event × Option Unit :=
  match methodBehavior inst "destroy" with
  | some .throwing => ([], some ())
  | _ => ([Event.destroyed inst.tag], none)

/-- The guarded per-instance destroy loop of `Projector.deactivateActiveTrack`
(lines 489-502): `if (isFunction(instance.destroy)) try { destroy() } catch
{ log }` — every failure is caught and logged against the placement id, and
iteration always continues. -/
def deactivateDestroyLoop (instanceId : String) (insts : List Instance) :
    List Event :=
  insts.flatMap fun inst =>
    if exposes inst "destroy" then
      let r := rawDestroy inst
      match r.2 with
      | none => r.1
      | some _ => r.1 ++ [Event.destroyErrorLogged instanceId inst.tag]
    else []

/-- The unguarded teardown loop at the start of `Projector.updateMatrix`
(lines 863-869): `if (isFunction(instance.destroy)) instance.destroy()` with
no `try/catch` — a throw propagates out of the loop and aborts it. -/
def matrixTeardownLoop : List Instance → List Event × Option Unit
  | [] => ([], none)
  | inst :: rest =>
      if exposes inst "destroy" then
        let r := rawDestroy inst
        match r.2 with
        | none =>
            let r2 := matrixTeardownLoop rest
            (r.1 ++ r2.1, r2.2)
        | some err => (r.1, some err)
      else matrixTeardownLoop rest

/-- `Projector.deactivateActiveTrack` (lines 473-515): no-op when idle or
reentered; when the DOM container is missing the reentrancy flag is reset
and nothing else changes; otherwise every live instance is destroyed with
per-instance error isolation, all surfaces are recycled, and the active
track, the ActiveModules registry and the Channel Handler Map are
cleared. -/
def deactivateActiveTrack (st : PState) : PState × List Event :=
  if st.activeTrack.isNone ∨ st.isDeactivating then (st, [])
  else if st.containerPresent = false then (st, [])
  else
    let evs := st.activeModules.flatMap fun p => deactivateDestroyLoop p.1 p.2
    ({ st with
        activeModules := []
        activeTrack := none
        activeChannelHandlers := []
        isDeactivating := false },
     evs)

/-- Consume one `Math.random()` draw from the modelled stream. -/
def drawRand (st : PState) : PState × ℚ :=
  ({ st with randIdx := st.randIdx + 1 }, st.randStream st.randIdx)

/-- The option-resolution pass of one method call in
`Projector.executeMethods` (`fromPairs(map(methodOptions, ...))`, lines
744-768), consuming one random draw per randomized option. -/
def resolveCallOptions (st : PState) :
    List OptionEntry → PState × List (String × JVal)
  | [] => (st, [])
  | e :: rest =>
      let step :=
        if consumesDraw e then
          ((drawRand st).1, resolveOptionValue e (drawRand st).2)
        else (st, resolveOptionValue e 0)
      let rec0 := resolveCallOptions step.1 rest
      (rec0.1, (e.name, step.2) :: rec0.2)

/-- Invoking one named method on one instance (lines 793-810): a missing
method is skipped with a warning; an existing method is called with the
resolved option bag and may throw. -/
def invokeInstance (inst : Instance) (methodName : String)
    (bag : List (String × JVal)) : List Event × Option Unit :=
  match methodBehavior inst methodName with
  | none => ([Event.warnMissing inst.tag methodName], none)
  | some .normal => ([Event.invoked inst.tag methodName bag], none)
  | some .throwing => ([Event.invoked inst.tag methodName bag], some ())

/-- The per-call fan-out over every current instance (lines 786-813),
linearised in list order; a thrown invocation rejects the batch. -/
def invokeAll (insts : List Instance) (methodName : String)
    (bag : List (String × JVal)) : List Event × Option Unit :=
  match insts with
  | [] => ([], none)
  | inst :: rest =>
      let r1 := invokeInstance inst methodName bag
      match r1.2 with
      | some err => (r1.1, some err)
      | none =>
          let r2 := invokeAll rest methodName bag
          (r1.1 ++ r2.1, r2.2)

/-- One non-matrix method call: resolve its options, then invoke it on every
instance. -/
def execCall (st : PState) (m : MethodCall) (insts : List Instance) :
    PState × List Event × Option Unit :=
  let s := resolveCallOptions st m.options
  let r := invokeAll insts m.name s.2
  (s.1, r.1, r.2)

/-- The non-matrix part of `Projector.executeMethods` (lines 740-816),
executing the retained calls on the given instance snapshot.  This is also
the behaviour of the nested `executeMethods` call on the matrix-filtered
constructor batch inside `updateMatrix`: that batch contains no `"matrix"`
call, so its matrix branch is inert. -/
def execOtherMethods (st : PState) (ms : List MethodCall)
    (insts : List Instance) : PState × List Event × Option Unit :=
  match ms with
  | [] => (st, [], none)
  | m :: rest =>
      let r1 := execCall st m insts
      match r1.2.2 with
      | some err => (r1.1, r1.2.1, some err)
      | none =>
          let r2 := execOtherMethods r1.1 rest insts
          (r2.1, r1.2.1 ++ r2.2.1, r2.2.2)

/-- Lookup of a property of the `fromPairs` object built from an option
list by name and static value only (`updateMatrix`, line 822): with
duplicate names the later pair wins. -/
def optLookup (opts : List OptionEntry) (k : String) : Option JVal :=
  (opts.reverse.find? fun e => e.name = k).map OptionEntry.value

/-- JavaScript `x || 1` on an optionally present integer field. -/
def or1 : Option ℕ → ℕ
  | some 0 => 1
  | some (n + 1) => n + 1
  | none => 1

/-- A parsed MatrixSpec as `updateMatrix` derives it (lines 826-843). -/
structure MatrixSpec where
  rows : ℕ
  cols : ℕ
  excludedCells : List String
  borderOn : Bool
  deriving DecidableEq

/-- Truthiness of an optionally present value. -/
def jsTruthyOpt (v : Option JVal) : Bool :=
  (v.map jsTruthy).getD false

/-- The matrix-option parsing of `updateMatrix` (lines 822-843): the array
form `[rows, cols]` has no excluded cells; the object form reads `rows`,
`cols` and `excludedCells`; `0` and absent fields default to `1` via `|| 1`;
any other value keeps the default `{rows: 1, cols: 1, excludedCells: [],
border: false}` (in which case the `border` option is not consulted). -/
def parseMatrixOptions (opts : List OptionEntry) : MatrixSpec :=
  match optLookup opts "matrix" with
  | some (.natArr l) =>
      ⟨or1 (l.get? 0), or1 (l.get? 1), [], jsTruthyOpt (optLookup opts "border")⟩
  | some (.mObj r c e) =>
      ⟨or1 r, or1 c, e.getD [], jsTruthyOpt (optLookup opts "border")⟩
  | _ => ⟨1, 1, [], false⟩

/-- Strip the `preview_` key marker used for preview placements. -/
def stripPreviewKey (s : String) : String :=
  if s.startsWith "preview_" then s.drop 8 else s

/-- `Projector.updateMatrix` (lines 820-977): parse the matrix options; stop
if the DOM container is missing; resolve the module type from the active
track (or the preview key); destroy the placement's existing instances
(unguarded — a throwing `destroy` propagates before the registry is
touched); reset the registry entry; lazily load the module class (a load
failure is logged and leaves the placement unmaterialized); create one
instance per retained grid cell in a single frame batch and store them; then
re-execute the placement's non-matrix constructor methods when a track is
active.  The nested source call to `executeMethods` on that filtered batch
is `execOtherMethods` here, since the filtered batch contains no `"matrix"`
call. -/
def updateMatrix (st : PState) (instanceId : String)
    (methodOptions : List OptionEntry) : PState × List Event × Option Unit :=
  let evs0 := [Event.matrixStart instanceId methodOptions]
  let spec := parseMatrixOptions methodOptions
  if st.containerPresent = false then (st, evs0, none)
  else
    let moduleType :=
      match
        ((match st.activeTrack with
          | some t => t.modules.find? fun m => m.id = instanceId
          | none => none) : Option ModuleRef) with
      | some m => m.type
      | none => stripPreviewKey instanceId
    if moduleType = "" then (st, evs0 ++ [Event.typeNotFound instanceId], none)
    else
      let existing := (assocLookup st.activeModules instanceId).getD []
      let td := matrixTeardownLoop existing
      match td.2 with
      | some err => (st, evs0 ++ td.1, some err)
      | none =>
          let st1 :=
            { st with activeModules := assocSet st.activeModules instanceId [] }
          let lr := loadModuleClass st1 moduleType (importOf st1 moduleType)
          let st2 := lr.1
          match lr.2 with
          | .failed => (st2, evs0 ++ td.1 ++ [Event.loadError moduleType], none)
          | .loadedNone =>
              -- unreachable: the module type is non-empty here; a null class
              -- would throw at construction time
              (st2, evs0 ++ td.1, some ())
          | .loaded cls =>
              let zIndex :=
                match st.activeTrack with
                | some t =>
                    match t.modules.findIdx? (fun m => m.id = instanceId) with
                    | some i => i + 1
                    | none => 0
                | none => 1
              let cells :=
                matrixCells spec.rows spec.cols spec.excludedCells zIndex spec.borderOn
              let newInsts :=
                cells.enum.map fun p => Instance.mk (st2.nextTag + p.1) cls.proto p.2
              let st3 :=
                { st2 with
                    activeModules := assocSet st2.activeModules instanceId newInsts
                    nextTag := st2.nextTag + cells.length }
              let evs2 := evs0 ++ td.1 ++ [Event.materialized instanceId cells.length]
              match st.activeTrack with
              | none => (st3, evs2, none)
              | some t =>
                  let ctor :=
                    ((assocLookup t.modulesData instanceId).bind
                      PlacementData.ctorMethods).getD []
                  let filtered := ctor.filter fun m => m.name ≠ "matrix"
                  if filtered.length = 0 then (st3, evs2, none)
                  else
                    let r3 := execOtherMethods st3 filtered newInsts
                    (r3.1, evs2 ++ r3.2.1, r3.2.2)

/-- The `forEach` separation pass of `Projector.executeMethods` (lines
716-728): records whether a `"matrix"` call is present, keeps the options of
the last one seen, and retains all other calls in order. -/
def partitionMatrix (ms : List MethodCall) :
    Bool × Option (List OptionEntry) × List MethodCall :=
  ms.foldl
    (fun acc m =>
      if m.name = "matrix" then (true, some m.options, acc.2.2)
      else (acc.1, acc.2.1, acc.2.2 ++ [m]))
    (false, none, [])

/-- `Projector.executeMethods` (lines 704-818): separate the `"matrix"` call
from the batch; if present, await the matrix materialization and replace the
instance snapshot with the refreshed registry entry; then execute every
other call of the batch on that snapshot. -/
def executeMethods (st : PState) (instanceId : String) (ms : List MethodCall)
    (moduleInstances : List Instance) : PState × List Event × Option Unit :=
  let parts := partitionMatrix ms
  if parts.1 then
    let um := updateMatrix st instanceId (parts.2.1.getD [])
    match um.2.2 with
    | some err => (um.1, um.2.1, some err)
    | none =>
        let refreshed := (assocLookup um.1.activeModules instanceId).getD []
        let r2 := execOtherMethods um.1 parts.2.2 refreshed
        (r2.1, um.2.1 ++ r2.2.1, r2.2.2)
  else
    execOtherMethods st parts.2.2 moduleInstances

/-- The constructor-method batch of a placement, when declared. -/
def ctorMethodsOf (track : Track) (instanceId : String) :
    Option (List MethodCall) :=
  (assocLookup track.modulesData instanceId).bind PlacementData.ctorMethods

/-- `Projector.handleTrackSelection` (lines 517-630).  An unknown track name
is logged and falls through to `deactivateActiveTrack`.  For a known track:
a different active track is deactivated first; reselecting the active track
is a no-op; a missing DOM container stops the activation; otherwise the
track is set active eagerly, the Channel Handler Map is derived, and every
placement resolves its module class (a load failure is logged and skips that
placement) and registers an empty instance list, after which the scheduled
constructor batches run (the deferred `Promise.resolve().then` executions,
linearised in placement order; their rejections are fire-and-forget). -/
def handleTrackSelection (st : PState) (trackName : String) :
    PState × List Event :=
  match st.userData.find? (fun t => t.name = trackName) with
  | none =>
      let d := deactivateActiveTrack st
      (d.1, Event.trackNotFound trackName :: d.2)
  | some track =>
      let d1 :=
        match st.activeTrack with
        | some cur =>
            if cur.name ≠ trackName then deactivateActiveTrack st else (st, [])
        | none => (st, [])
      let st1 := d1.1
      let evs1 := d1.2
      if st1.activeTrack.map Track.name = some trackName then (st1, evs1)
      else if st1.containerPresent = false then (st1, evs1)
      else
        let st2 :=
          { st1 with
              activeTrack := some track
              activeChannelHandlers := buildChannelHandlerMap track }
        let initAcc :=
          track.modules.foldl
            (fun (acc : PState × List Event × List ModuleRef) m =>
              let lr := loadModuleClass acc.1 m.type (importOf acc.1 m.type)
              match lr.2 with
              | .failed => (lr.1, acc.2.1 ++ [Event.loadError m.type], acc.2.2)
              | _ =>
                  ({ lr.1 with activeModules := assocSet lr.1.activeModules m.id [] },
                   acc.2.1, acc.2.2 ++ [m]))
            (st2, [], [])
        let ctorAcc :=
          initAcc.2.2.foldl
            (fun (acc : PState × List Event) m =>
              match ctorMethodsOf track m.id with
              | some ms =>
                  if ms.length = 0 then acc
                  else
                    let r :=
                      executeMethods acc.1 m.id ms
                        ((assocLookup acc.1.activeModules m.id).getD [])
                    (r.1, acc.2 ++ r.2.1)
              | none => acc)
            (initAcc.1, [])
        (ctorAcc.1, evs1 ++ initAcc.2.1 ++ ctorAcc.2)

/-- The no-repeat configuration optionally passed to `buildMethodOptions`
(methodOptions.js): a get/set cache of last picked values and a non-empty
key marker string. -/
structure NoRepeatCfg where
  cache : List (String × JVal)
  keyPfx : String
  deriving DecidableEq

/-- The cache key `pfx:name:kind` used by the no-repeat logic, available
only when a usable cache and a non-empty key marker were supplied. -/
def noRepeatKey (cfg : Option NoRepeatCfg) (name kind : String) :
    Option String :=
  match cfg with
  | some c =>
      if c.keyPfx = "" then none else some (c.keyPfx ++ ":" ++ name ++ ":" ++ kind)
  | none => none

/-- Read the no-repeat cache. -/
def cfgGet (cfg : Option NoRepeatCfg) (key : Option String) : Option JVal :=
  match cfg, key with
  | some c, some k => assocLookup c.cache k
  | _, _ => none

/-- Write the no-repeat cache. -/
def cfgSet (cfg : Option NoRepeatCfg) (key : Option String) (v : JVal) :
    Option NoRepeatCfg :=
  match cfg, key with
  | some c, some k => some { c with cache := assocSet c.cache k v }
  | _, _ => cfg

/-- The no-repeat nudge on an integer-range pick (methodOptions.js lines
64-66): when a usable cache key exists, the range has more than one value,
the last cached pick is a number and the fresh pick repeats it, move one up
inside the range (wrapping from `max` to `min`). -/
def noRepeatAdjust (keyPresent : Bool) (last : Option JVal) (mn mx picked0 : ℚ) :
    ℚ :=
  if keyPresent then
    match last with
    | some (JVal.num q) =>
        if 1 < mx - mn + 1 ∧ picked0 = q then
          if picked0 < mx then picked0 + 1 else mn
        else picked0
    | _ => picked0
  else picked0

/-- The randomRange part of one `buildMethodOptions` entry (methodOptions.js
lines 36-75): a fully numeric two-element range is swapped when inverted and
sampled (integer ranges with the no-repeat nudge, float ranges uniformly);
a malformed range falls back to the static value. -/
def bmoRange (e : OptionEntry) (cfg : Option NoRepeatCfg) (r : ℚ) :
    JVal × Option NoRepeatCfg :=
  match e.randomRange with
  | some [JVal.num a, JVal.num b] =>
      let mn := if a > b then b else a
      let mx := if a > b then a else b
      if mn.den = 1 ∧ mx.den = 1 then
        let key := noRepeatKey cfg e.name "rrInt"
        let picked0 : ℚ := ((⌊r * (mx - mn + 1)⌋ : ℤ) : ℚ) + mn
        let picked : ℚ :=
          noRepeatAdjust key.isSome (cfgGet cfg key) mn mx picked0
        (JVal.num picked, cfgSet cfg key (JVal.num picked))
      else
        (JVal.num (r * (mx - mn) + mn), cfg)
  | some [_, _] =>
      -- non-numeric bound: `onInvalidRandomRange` is notified, static value used
      (e.value, cfg)
  | some _ => (e.value, cfg)
  | none => (e.value, cfg)

/-- The body of `buildMethodOptions` (methodOptions.js lines 19-76),
recursing over the entries with the accumulated output object, the
no-repeat state, and one random draw per entry position. -/
def buildMethodOptionsGo (draw : ℕ → ℚ) :
    List OptionEntry → ℕ → List (String × JVal) → Option NoRepeatCfg →
    List (String × JVal) × Option NoRepeatCfg
  | [], _, out, cfg => (out, cfg)
  | e :: rest, i, out, cfg =>
      if e.name = "" then buildMethodOptionsGo draw rest (i + 1) out cfg
      else
        match e.randomValues with
        | some rv =>
            if rv.length ≠ 0 then
              let key := noRepeatKey cfg e.name "rv"
              let last := cfgGet cfg key
              let candidates :=
                match last with
                | some lv => if 1 < rv.length then rv.filter (fun v => v ≠ lv) else rv
                | none => rv
              let idx := (⌊draw i * (max 1 candidates.length : ℚ)⌋).toNat
              -- an out-of-range index yields JS `undefined`, modelled as null
              let picked := (candidates.get? idx).getD JVal.nullV
              buildMethodOptionsGo draw rest (i + 1)
                (assocSet out e.name picked) (cfgSet cfg key picked)
            else
              let (v, cfg1) := bmoRange e cfg (draw i)
              buildMethodOptionsGo draw rest (i + 1) (assocSet out e.name v) cfg1
        | none =>
            let (v, cfg1) := bmoRange e cfg (draw i)
            buildMethodOptionsGo draw rest (i + 1) (assocSet out e.name v) cfg1

/-- `buildMethodOptions` (methodOptions.js): resolve every named entry into
the output option bag, threading the optional no-repeat cache. -/
def buildMethodOptions (entries : List OptionEntry) (cfg : Option NoRepeatCfg)
    (draw : ℕ → ℚ) : List (String × JVal) × Option NoRepeatCfg :=
  buildMethodOptionsGo draw entries 0 [] cfg

/-- Whether a modelled JS value is a number. -/
def isNum : JVal → Bool
  | .num _ => true
  | _ => false

lemma floor_sample_bounds (d r : ℚ) (hd : 0 ≤ d) (hr0 : 0 ≤ r) (hr1 : r < 1)
    (z : ℤ) (hz : d = (z : ℚ)) :
    0 ≤ ⌊r * (d + 1)⌋ ∧ ((⌊r * (d + 1)⌋ : ℤ) : ℚ) ≤ d := by
  have hpos : (0 : ℚ) < d + 1 := by linarith
  constructor
  · exact Int.floor_nonneg.mpr (mul_nonneg hr0 (le_of_lt hpos))
  · have hlt2 : r * (d + 1) < ((z + 1 : ℤ) : ℚ) := by
      push_cast
      rw [← hz]
      nlinarith [mul_lt_mul_of_pos_right hr1 hpos]
    have hfloor : ⌊r * (d + 1)⌋ < z + 1 := Int.floor_lt.mpr hlt2
    have hle : ⌊r * (d + 1)⌋ ≤ z := by omega
    calc ((⌊r * (d + 1)⌋ : ℤ) : ℚ) ≤ (z : ℚ) := by exact_mod_cast hle
      _ = d := hz.symm

lemma int_sample_mem (mn mx r : ℚ) (hmn : mn.den = 1) (hmx : mx.den = 1)
    (h : mn ≤ mx) (hr0 : 0 ≤ r) (hr1 : r < 1) :
    mn ≤ ((⌊r * (mx - mn + 1)⌋ : ℤ) : ℚ) + mn ∧
    ((⌊r * (mx - mn + 1)⌋ : ℤ) : ℚ) + mn ≤ mx := by
  have hA : ((mn.num : ℤ) : ℚ) = mn := Rat.coe_int_num_of_den_eq_one hmn
  have hB : ((mx.num : ℤ) : ℚ) = mx := Rat.coe_int_num_of_den_eq_one hmx
  have hz : mx - mn = ((mx.num - mn.num : ℤ) : ℚ) := by push_cast; rw [hA, hB]
  have hd : (0 : ℚ) ≤ mx - mn := by linarith
  obtain ⟨h0, h1⟩ := floor_sample_bounds (mx - mn) r hd hr0 hr1 (mx.num - mn.num) hz
  constructor
  · have : (0 : ℚ) ≤ ((⌊r * (mx - mn + 1)⌋ : ℤ) : ℚ) := by exact_mod_cast h0
    linarith
  · linarith

lemma rat_int_lt_succ_le {x y : ℚ} (zx zy : ℤ) (hx : x = (zx : ℚ))
    (hy : y = (zy : ℚ)) (h : x < y) : x + 1 ≤ y := by
  subst hx; subst hy
  have : zx < zy := by exact_mod_cast h
  have : zx + 1 ≤ zy := by omega
  exact_mod_cast this

lemma float_sample_mem (mn mx r : ℚ) (h : mn ≤ mx) (hr0 : 0 ≤ r) (hr1 : r < 1) :
    mn ≤ r * (mx - mn) + mn ∧ r * (mx - mn) + mn ≤ mx ∧
    (mn < mx → r * (mx - mn) + mn < mx) := by
  have hd : (0 : ℚ) ≤ mx - mn := by linarith
  refine ⟨by nlinarith, by nlinarith, fun hlt => ?_⟩
  have : r * (mx - mn) < 1 * (mx - mn) := by
    apply mul_lt_mul_of_pos_right hr1
    linarith
  linarith

lemma resolveOptionValue_eq (e : OptionEntry) (a b r : ℚ)
    (hrr : e.randomRange = some [JVal.num a, JVal.num b]) (hab : a ≤ b) :
    resolveOptionValue e r =
      if a.den = 1 ∧ b.den = 1 then
        JVal.num (((⌊r * (b - a + 1)⌋ : ℤ) : ℚ) + a)
      else JVal.num (r * (b - a) + a) := by
  unfold resolveOptionValue
  rw [hrr]
  have h : ¬ (a > b) := not_lt.mpr hab
  simp [h]

/-- C6: for a `randomRange` with numeric bounds `min ≤ max` and a draw
`r ∈ [0, 1)`, integer bounds resolve to `floor(r * (max - min + 1)) + min`,
an integer in `[min, max]` with both endpoints reachable by suitable draws;
non-integer numeric bounds resolve to `r * (max - min) + min`, which lies in
`[min, max]` and is strictly below `max` whenever `min < max` (the original
claim's half-open interval `[min, max)` fails only in the degenerate case
`min = max`, where the resolved value equals the shared bound). -/
theorem c6_integer_range_sampling (e : OptionEntry) (a b r : ℚ)
    (hrr : e.randomRange = some [JVal.num a, JVal.num b])
    (hab : a ≤ b) (hr0 : 0 ≤ r) (hr1 : r < 1) :
    ((a.den = 1 ∧ b.den = 1) →
      resolveOptionValue e r = JVal.num (((⌊r * (b - a + 1)⌋ : ℤ) : ℚ) + a) ∧
      (∃ z : ℤ, ((⌊r * (b - a + 1)⌋ : ℤ) : ℚ) + a = (z : ℚ)) ∧
      a ≤ ((⌊r * (b - a + 1)⌋ : ℤ) : ℚ) + a ∧
      ((⌊r * (b - a + 1)⌋ : ℤ) : ℚ) + a ≤ b ∧
      resolveOptionValue e 0 = JVal.num a ∧
      0 ≤ (b - a) / (b - a + 1) ∧ (b - a) / (b - a + 1) < 1 ∧
      resolveOptionValue e ((b - a) / (b - a + 1)) = JVal.num b) ∧
    (¬ (a.den = 1 ∧ b.den = 1) →
      resolveOptionValue e r = JVal.num (r * (b - a) + a) ∧
      a ≤ r * (b - a) + a ∧ r * (b - a) + a ≤ b ∧
      (a < b → r * (b - a) + a < b)) := by
  constructor
  · rintro ⟨hda, hdb⟩
    have hmem := int_sample_mem a b r hda hdb hab hr0 hr1
    have hA : ((a.num : ℤ) : ℚ) = a := Rat.coe_int_num_of_den_eq_one hda
    have hB : ((b.num : ℤ) : ℚ) = b := Rat.coe_int_num_of_den_eq_one hdb
    have hd0 : (0 : ℚ) ≤ b - a := by linarith
    have hd1 : (0 : ℚ) < b - a + 1 := by linarith
    refine ⟨?_, ?_, hmem.1, hmem.2, ?_, ?_, ?_, ?_⟩
    · rw [resolveOptionValue_eq e a b r hrr hab, if_pos ⟨hda, hdb⟩]
    · exact ⟨⌊r * (b - a + 1)⌋ + a.num, by push_cast; rw [hA]⟩
    · rw [resolveOptionValue_eq e a b 0 hrr hab, if_pos ⟨hda, hdb⟩]
      norm_num
    · exact div_nonneg hd0 (le_of_lt hd1)
    · rw [div_lt_one hd1]
      linarith
    · rw [resolveOptionValue_eq e a b _ hrr hab, if_pos ⟨hda, hdb⟩]
      rw [div_mul_cancel₀ _ (ne_of_gt hd1)]
      have hz : b - a = ((b.num - a.num : ℤ) : ℚ) := by push_cast; rw [hA, hB]
      rw [hz, Int.floor_intCast]
      congr 1
      push_cast
      rw [hA, hB]
      ring
  · intro hni
    obtain ⟨h1, h2, h3⟩ := float_sample_mem a b r hab hr0 hr1
    exact ⟨by rw [resolveOptionValue_eq e a b r hrr hab, if_neg hni], h1, h2, h3⟩

/-- C6 counterexample to the claim as stated: with the non-integer bounds
`min = max = 5/2` the resolved value is `5/2`, which does not lie in the
half-open interval `[5/2, 5/2)` the claim promises. -/
theorem c6_counterexample :
    resolveOptionValue
        ⟨"x", JVal.nullV, some [JVal.num (5 / 2), JVal.num (5 / 2)], none⟩ 0
      = JVal.num (5 / 2) ∧ ((5 / 2 : ℚ) ∉ Set.Ico (5 / 2 : ℚ) (5 / 2)) := by
  constructor
  · rw [resolveOptionValue_eq _ (5 / 2) (5 / 2) 0 rfl le_rfl, if_neg]
    · norm_num
    · rintro ⟨hd, _⟩
      have h5 : (((5 / 2 : ℚ).num : ℤ) : ℚ) = (5 / 2 : ℚ) :=
        Rat.coe_int_num_of_den_eq_one hd
      have h2 : ((2 * (5 / 2 : ℚ).num : ℤ) : ℚ) = 5 := by push_cast; rw [h5]; ring
      have h3 : (2 * (5 / 2 : ℚ).num : ℤ) = 5 := by exact_mod_cast h2
      omega
  · simp

/-- Witness for `c6_integer_range_sampling` at the integer range `[1, 3]`
and the draw `1/2`: the resolved value is `floor(1/2 * 3) + 1 = 2`. -/
theorem c6_integer_range_sampling_witness :
    resolveOptionValue
        ⟨"x", JVal.nullV, some [JVal.num 1, JVal.num 3], none⟩ (1 / 2)
      = JVal.num 2 := by
  have h := c6_integer_range_sampling
    ⟨"x", JVal.nullV, some [JVal.num 1, JVal.num 3], none⟩ 1 3 (1 / 2)
    rfl (by norm_num) (by norm_num) (by norm_num)
  have h2 := (h.1 ⟨by decide, by decide⟩).1
  rw [h2]
  norm_num

lemma resolveOptionValue_eq_swap (e : OptionEntry) (a b r : ℚ)
    (hrr : e.randomRange = some [JVal.num a, JVal.num b]) (hba : b < a) :
    resolveOptionValue e r =
      if b.den = 1 ∧ a.den = 1 then
        JVal.num (((⌊r * (a - b + 1)⌋ : ℤ) : ℚ) + b)
      else JVal.num (r * (a - b) + b) := by
  unfold resolveOptionValue
  rw [hrr]
  simp [hba]

lemma resolveOptionValue_nonnum (e2 : OptionEntry) (v w : JVal) (r : ℚ)
    (hrr : e2.randomRange = some [v, w])
    (h : isNum v = false ∨ isNum w = false) :
    resolveOptionValue e2 r = e2.value := by
  unfold resolveOptionValue
  rw [hrr]
  cases v <;> cases w <;> first
    | rfl
    | (exfalso; simp [isNum] at h)

lemma noRepeatAdjust_mem (kp : Bool) (last : Option JVal) (mn mx p0 : ℚ)
    (z : ℤ) (hz : p0 = (z : ℚ)) (hmx : mx.den = 1)
    (h1 : mn ≤ p0) (h2 : p0 ≤ mx) :
    mn ≤ noRepeatAdjust kp last mn mx p0 ∧
      noRepeatAdjust kp last mn mx p0 ≤ mx := by
  unfold noRepeatAdjust
  cases kp with
  | false => exact ⟨h1, h2⟩
  | true =>
      simp only [if_true]
      match last with
      | none => exact ⟨h1, h2⟩
      | some (JVal.str _) => exact ⟨h1, h2⟩
      | some (JVal.boolVal _) => exact ⟨h1, h2⟩
      | some (JVal.natArr _) => exact ⟨h1, h2⟩
      | some (JVal.mObj _ _ _) => exact ⟨h1, h2⟩
      | some JVal.nullV => exact ⟨h1, h2⟩
      | some (JVal.num q) =>
          dsimp only
          by_cases hcond : 1 < mx - mn + 1 ∧ p0 = q
          · rw [if_pos hcond]
            by_cases hlt : p0 < mx
            · rw [if_pos hlt]
              have hstep := rat_int_lt_succ_le z mx.num hz
                (Rat.coe_int_num_of_den_eq_one hmx).symm hlt
              exact ⟨by linarith, hstep⟩
            · rw [if_neg hlt]
              exact ⟨le_refl mn, by linarith⟩
          · rw [if_neg hcond]
            exact ⟨h1, h2⟩

lemma bmoRange_swap_mem (e : OptionEntry) (a b r : ℚ) (cfg : Option NoRepeatCfg)
    (hrr : e.randomRange = some [JVal.num a, JVal.num b]) (hba : b < a)
    (hr0 : 0 ≤ r) (hr1 : r < 1) :
    ∃ q : ℚ, (bmoRange e cfg r).1 = JVal.num q ∧ b ≤ q ∧ q ≤ a := by
  unfold bmoRange
  rw [hrr]
  simp only [hba, gt_iff_lt, if_true]
  by_cases hden : b.den = 1 ∧ a.den = 1
  · rw [if_pos hden]
    obtain ⟨hm1, hm2⟩ :=
      int_sample_mem b a r hden.1 hden.2 (le_of_lt hba) hr0 hr1
    have hB : ((b.num : ℤ) : ℚ) = b := Rat.coe_int_num_of_den_eq_one hden.1
    have hz : ((⌊r * (a - b + 1)⌋ : ℤ) : ℚ) + b
        = ((⌊r * (a - b + 1)⌋ + b.num : ℤ) : ℚ) := by push_cast; rw [hB]
    obtain ⟨ha1, ha2⟩ := noRepeatAdjust_mem
      (noRepeatKey cfg e.name "rrInt").isSome
      (cfgGet cfg (noRepeatKey cfg e.name "rrInt")) b a
      (((⌊r * (a - b + 1)⌋ : ℤ) : ℚ) + b)
      (⌊r * (a - b + 1)⌋ + b.num) hz hden.2 hm1 hm2
    exact ⟨_, rfl, ha1, ha2⟩
  · rw [if_neg hden]
    obtain ⟨hf1, hf2, _⟩ := float_sample_mem b a r (le_of_lt hba) hr0 hr1
    exact ⟨_, rfl, hf1, hf2⟩

lemma buildMethodOptions_single (e : OptionEntry) (cfg : Option NoRepeatCfg)
    (r : ℚ) (hname : e.name ≠ "") (hrv : e.randomValues = none) :
    (buildMethodOptions [e] cfg (fun _ => r)).1
      = [(e.name, (bmoRange e cfg r).1)] := by
  unfold buildMethodOptions buildMethodOptionsGo
  rw [hrv]
  rcases hb : bmoRange e cfg r with ⟨v, cfg1⟩
  simp [hname, hb, assocSet, buildMethodOptionsGo]

/-- C5: resolving an option whose `randomRange` is `[min, max]` with both
bounds numeric and `min > max` never throws: both the inline resolver of
`executeMethods` and `buildMethodOptions` swap the bounds (with a logged
warning) and produce a value inside `[max, min]`; a range with a
non-numeric bound falls back to the static value. -/
theorem c5_inverted_range (e : OptionEntry) (a b r : ℚ)
    (hrr : e.randomRange = some [JVal.num a, JVal.num b]) (hba : b < a)
    (hr0 : 0 ≤ r) (hr1 : r < 1)
    (hname : e.name ≠ "") (hrv : e.randomValues = none)
    (cfg : Option NoRepeatCfg) :
    (∃ q : ℚ, resolveOptionValue e r = JVal.num q ∧ b ≤ q ∧ q ≤ a) ∧
    (∃ q : ℚ, (buildMethodOptions [e] cfg (fun _ => r)).1
        = [(e.name, JVal.num q)] ∧ b ≤ q ∧ q ≤ a) ∧
    (∀ e2 : OptionEntry, ∀ v w : JVal, e2.randomRange = some [v, w] →
      isNum v = false ∨ isNum w = false →
      resolveOptionValue e2 r = e2.value) := by
  refine ⟨?_, ?_, fun e2 v w h1 h2 => resolveOptionValue_nonnum e2 v w r h1 h2⟩
  · rw [resolveOptionValue_eq_swap e a b r hrr hba]
    by_cases hden : b.den = 1 ∧ a.den = 1
    · rw [if_pos hden]
      obtain ⟨hm1, hm2⟩ :=
        int_sample_mem b a r hden.1 hden.2 (le_of_lt hba) hr0 hr1
      exact ⟨_, rfl, hm1, hm2⟩
    · rw [if_neg hden]
      obtain ⟨hf1, hf2, _⟩ := float_sample_mem b a r (le_of_lt hba) hr0 hr1
      exact ⟨_, rfl, hf1, hf2⟩
  · obtain ⟨q, hq, hq1, hq2⟩ := bmoRange_swap_mem e a b r cfg hrr hba hr0 hr1
    refine ⟨q, ?_, hq1, hq2⟩
    rw [buildMethodOptions_single e cfg r hname hrv, hq]

/-- Witness for `c5_inverted_range` at the inverted range `[3, 1]` with the
draw `0` and no no-repeat cache. -/
theorem c5_inverted_range_witness :
    (∃ q : ℚ,
        resolveOptionValue
            ⟨"opt", JVal.nullV, some [JVal.num 3, JVal.num 1], none⟩ 0
          = JVal.num q ∧ 1 ≤ q ∧ q ≤ 3) ∧
    (∃ q : ℚ,
        (buildMethodOptions
            [⟨"opt", JVal.nullV, some [JVal.num 3, JVal.num 1], none⟩]
            none (fun _ => 0)).1 = [("opt", JVal.num q)] ∧ 1 ≤ q ∧ q ≤ 3) ∧
    (∀ e2 : OptionEntry, ∀ v w : JVal, e2.randomRange = some [v, w] →
      isNum v = false ∨ isNum w = false →
      resolveOptionValue e2 0 = e2.value) :=
  c5_inverted_range ⟨"opt", JVal.nullV, some [JVal.num 3, JVal.num 1], none⟩
    3 1 0 rfl (by norm_num) (by norm_num) (by norm_num) (by decide) rfl none

lemma assocLookup_assocSet_self {α : Type} (m : List (String × α)) (k : String)
    (v : α) : assocLookup (assocSet m k v) k = some v := by
  induction m with
  | nil => simp [assocSet, assocLookup]
  | cons p rest ih =>
      by_cases h : p.1 = k
      · simp [assocSet, assocLookup, h]
      · rcases p with ⟨k0, v0⟩
        simp only at h
        simp only [assocSet, if_neg h]
        simp only [assocLookup, List.find?_cons]
        rw [show (decide (k0 = k)) = false from decide_eq_false h]
        exact ih

lemma resolveCallOptions_activeModules (opts : List OptionEntry) (st : PState) :
    (resolveCallOptions st opts).1.activeModules = st.activeModules := by
  induction opts generalizing st with
  | nil => rfl
  | cons e rest ih =>
      show (resolveCallOptions _ (e :: rest)).1.activeModules = _
      unfold resolveCallOptions
      dsimp only
      rw [ih]
      by_cases hc : consumesDraw e = true
      · rw [if_pos hc]
        rfl
      · rw [if_neg hc]

lemma execCall_activeModules (st : PState) (m : MethodCall)
    (insts : List Instance) :
    (execCall st m insts).1.activeModules = st.activeModules :=
  resolveCallOptions_activeModules m.options st

lemma execOtherMethods_activeModules (ms : List MethodCall) (st : PState)
    (insts : List Instance) :
    (execOtherMethods st ms insts).1.activeModules = st.activeModules := by
  induction ms generalizing st with
  | nil => rfl
  | cons m rest ih =>
      unfold execOtherMethods
      cases h : (execCall st m insts).2.2 with
      | some err =>
          simp only [h]
          exact execCall_activeModules st m insts
      | none =>
          simp only [h]
          rw [ih]
          exact execCall_activeModules st m insts

lemma loadModuleClass_cached (st : PState) (ty : String) (cls : ModuleClass)
    (ir : Option ModuleClass) (hty : ¬ ty = "")
    (hcache : assocLookup st.moduleClassCache ty = some cls) :
    loadModuleClass st ty ir = (st, .loaded cls) := by
  unfold loadModuleClass
  rw [if_neg hty, hcache]

/-- The behaviour of `updateMatrix` in normal operation: DOM container
present, placement found on the active track, module class already cached,
and no throwing `destroy` among the existing instances. -/
lemma updateMatrix_normal (st : PState) (instanceId : String)
    (opts : List OptionEntry) (t : Track) (mref : ModuleRef) (cls : ModuleClass)
    (hcont : st.containerPresent = true)
    (htrack : st.activeTrack = some t)
    (hfind : t.modules.find? (fun m => m.id = instanceId) = some mref)
    (hty : ¬ mref.type = "")
    (hteardown :
      (matrixTeardownLoop ((assocLookup st.activeModules instanceId).getD [])).2
        = none)
    (hcache : assocLookup st.moduleClassCache mref.type = some cls) :
    updateMatrix st instanceId opts =
      (let spec := parseMatrixOptions opts
       let td := matrixTeardownLoop ((assocLookup st.activeModules instanceId).getD [])
       let zIndex :=
         match t.modules.findIdx? (fun m => m.id = instanceId) with
         | some i => i + 1
         | none => 0
       let cells :=
         matrixCells spec.rows spec.cols spec.excludedCells zIndex spec.borderOn
       let newInsts :=
         cells.enum.map fun p => Instance.mk (st.nextTag + p.1) cls.proto p.2
       let st3 :=
         { st with
             activeModules :=
               assocSet (assocSet st.activeModules instanceId []) instanceId newInsts
             nextTag := st.nextTag + cells.length }
       let evs2 := [Event.matrixStart instanceId opts] ++ td.1 ++
         [Event.materialized instanceId cells.length]
       let filtered :=
         (((assocLookup t.modulesData instanceId).bind
             PlacementData.ctorMethods).getD []).filter fun m => ¬ m.name = "matrix"
       if filtered.length = 0 then (st3, evs2, none)
       else
         let r3 := execOtherMethods st3 filtered newInsts
         (r3.1, evs2 ++ r3.2.1, r3.2.2)) := by
  obtain ⟨ud, atk, am, ach, isd, mcc, cp, ie, ia, rs, ri, nt⟩ := st
  replace hcont : cp = true := hcont
  replace htrack : atk = some t := htrack
  subst hcont
  subst htrack
  replace hteardown :
      (matrixTeardownLoop ((assocLookup am instanceId).getD [])).2 = none :=
    hteardown
  replace hcache : assocLookup mcc mref.type = some cls := hcache
  unfold updateMatrix
  simp only [Bool.true_eq_false, if_false, hfind]
  rw [if_neg hty, hteardown]
  have hload :
      loadModuleClass
          ⟨ud, some t, assocSet am instanceId [], ach, isd, mcc, true, ie, ia,
            rs, ri, nt⟩ mref.type
          (importOf
            ⟨ud, some t, assocSet am instanceId [], ach, isd, mcc, true, ie, ia,
              rs, ri, nt⟩ mref.type)
        = (⟨ud, some t, assocSet am instanceId [], ach, isd, mcc, true, ie, ia,
            rs, ri, nt⟩, .loaded cls) :=
    loadModuleClass_cached _ _ cls _ hty hcache
  rw [hload]

/-- The live instances registered for a placement after a matrix update. -/
def materializedInstances (st : PState) (instanceId : String)
    (opts : List OptionEntry) : List Instance :=
  (assocLookup (updateMatrix st instanceId opts).1.activeModules
    instanceId).getD []

lemma materializedInstances_eq (st : PState) (instanceId : String)
    (opts : List OptionEntry) (t : Track) (mref : ModuleRef) (cls : ModuleClass)
    (hcont : st.containerPresent = true)
    (htrack : st.activeTrack = some t)
    (hfind : t.modules.find? (fun m => m.id = instanceId) = some mref)
    (hty : ¬ mref.type = "")
    (hteardown :
      (matrixTeardownLoop ((assocLookup st.activeModules instanceId).getD [])).2
        = none)
    (hcache : assocLookup st.moduleClassCache mref.type = some cls) :
    materializedInstances st instanceId opts =
      (matrixCells (parseMatrixOptions opts).rows (parseMatrixOptions opts).cols
          (parseMatrixOptions opts).excludedCells
          (match t.modules.findIdx? (fun m => m.id = instanceId) with
           | some i => i + 1
           | none => 0)
          (parseMatrixOptions opts).borderOn).enum.map
        fun p => Instance.mk (st.nextTag + p.1) cls.proto p.2 := by
  have hnorm := updateMatrix_normal st instanceId opts t mref cls hcont htrack
    hfind hty hteardown hcache
  unfold materializedInstances
  rw [hnorm]
  dsimp only
  by_cases hf :
      ((((assocLookup t.modulesData instanceId).bind
          PlacementData.ctorMethods).getD []).filter
        fun m => ¬ m.name = "matrix").length = 0
  · rw [if_pos hf]
    dsimp only
    rw [assocLookup_assocSet_self]
    rfl
  · rw [if_neg hf]
    dsimp only
    rw [execOtherMethods_activeModules]
    dsimp only
    rw [assocLookup_assocSet_self]
    rfl

/-- C1: in normal operation, a matrix update with parsed specification
`rows = r, cols = c, excludedCells = E` registers exactly
`r * c - |E ∩ validCells|` live instances for the placement — the grid loop
runs rows outer, columns inner, skipping every cell whose `"row-col"` key is
in `E` — and every retained instance's cell geometry is
`width = 100/c`, `height = 100/r`, `top = (100/r)*(row-1)`,
`left = (100/c)*(col-1)` percent. -/
theorem c1_matrix_materialization (st : PState) (instanceId : String)
    (opts : List OptionEntry) (t : Track) (mref : ModuleRef) (cls : ModuleClass)
    (hcont : st.containerPresent = true)
    (htrack : st.activeTrack = some t)
    (hfind : t.modules.find? (fun m => m.id = instanceId) = some mref)
    (hty : ¬ mref.type = "")
    (hteardown :
      (matrixTeardownLoop ((assocLookup st.activeModules instanceId).getD [])).2
        = none)
    (hcache : assocLookup st.moduleClassCache mref.type = some cls) :
    (materializedInstances st instanceId opts).length
      = (parseMatrixOptions opts).rows * (parseMatrixOptions opts).cols
        - excludedValidCount (parseMatrixOptions opts).rows
            (parseMatrixOptions opts).cols
            (parseMatrixOptions opts).excludedCells ∧
    ∀ inst ∈ materializedInstances st instanceId opts,
      inst.cell.widthPct = 100 / ((parseMatrixOptions opts).cols : ℚ) ∧
      inst.cell.heightPct = 100 / ((parseMatrixOptions opts).rows : ℚ) ∧
      inst.cell.topPct
        = (100 / ((parseMatrixOptions opts).rows : ℚ)) * ((inst.cell.row : ℚ) - 1) ∧
      inst.cell.leftPct
        = (100 / ((parseMatrixOptions opts).cols : ℚ)) * ((inst.cell.col : ℚ) - 1) := by
  have heq := materializedInstances_eq st instanceId opts t mref cls hcont htrack
    hfind hty hteardown hcache
  rw [heq]
  constructor
  · rw [List.length_map, List.enum_length]
    have hadd := matrixCells_length_add (parseMatrixOptions opts).rows
      (parseMatrixOptions opts).cols (parseMatrixOptions opts).excludedCells
      (match t.modules.findIdx? (fun m => m.id = instanceId) with
       | some i => i + 1
       | none => 0)
      (parseMatrixOptions opts).borderOn
    omega
  · intro inst hinst
    obtain ⟨p, hp, hmk⟩ := List.mem_map.mp hinst
    have hcell : p.2 ∈ matrixCells (parseMatrixOptions opts).rows
        (parseMatrixOptions opts).cols (parseMatrixOptions opts).excludedCells
        (match t.modules.findIdx? (fun m => m.id = instanceId) with
         | some i => i + 1
         | none => 0)
        (parseMatrixOptions opts).borderOn :=
      List.snd_mem_of_mem_enumFrom hp
    have hg := matrixCells_geometry _ _ _ _ _ _ hcell
    rw [← hmk]
    exact hg

/-- A minimal module class used by concrete test states. -/
def tCls : ModuleClass := ⟨[("show", .normal), ("destroy", .normal)]⟩

/-- A minimal one-placement track used by concrete test states. -/
def tTrack : Track := ⟨"Intro", [⟨"p1", "Mod"⟩], [("p1", ⟨none, none⟩)]⟩

/-- A concrete projector state with `tTrack` active and its module class
cached. -/
def tState : PState :=
  { userData := [tTrack]
    activeTrack := some tTrack
    activeModules := [("p1", [])]
    activeChannelHandlers := []
    isDeactivating := false
    moduleClassCache := [("Mod", tCls)]
    containerPresent := true
    importEnv := []
    importAttempts := 0
    randStream := fun _ => 0
    randIdx := 0
    nextTag := 0 }

/-- The options of a `matrix` call for a 2 by 2 grid excluding cell
`"1-1"`. -/
def tMatrixOpts : List OptionEntry :=
  [⟨"matrix", JVal.mObj (some 2) (some 2) (some ["1-1"]), none, none⟩]

/-- Witness for `c1_matrix_materialization`: a 2 by 2 matrix with `"1-1"`
excluded materializes exactly 3 live instances. -/
theorem c1_matrix_materialization_witness :
    (materializedInstances tState "p1" tMatrixOpts).length = 3 := by
  have h := (c1_matrix_materialization tState "p1" tMatrixOpts tTrack
    ⟨"p1", "Mod"⟩ tCls rfl rfl (by decide) (by decide) (by decide)
    (by decide)).1
  rw [h]
  decide

lemma partitionMatrix_fold_char (ms : List MethodCall) (b : Bool)
    (o : Option (List OptionEntry)) (l : List MethodCall) :
    ms.foldl
      (fun acc m =>
        if m.name = "matrix" then (true, some m.options, acc.2.2)
        else (acc.1, acc.2.1, acc.2.2 ++ [m]))
      (b, o, l)
    = (b || ms.any (fun m => m.name = "matrix"),
       ((ms.reverse.find? fun m => m.name = "matrix").map MethodCall.options).or o,
       l ++ ms.filter fun m => ¬ m.name = "matrix") := by
  induction ms generalizing b o l with
  | nil => simp
  | cons m rest ih =>
      simp only [List.foldl_cons, List.any_cons, List.reverse_cons,
        List.find?_append, List.filter_cons]
      by_cases hm : m.name = "matrix"
      · rw [if_pos hm, ih]
        have hfm : List.find? (fun m => decide (m.name = "matrix")) [m] = some m := by
          simp [List.find?_cons, hm]
        rw [hfm]
        simp only [hm, decide_True, Bool.true_or, Bool.or_true, decide_not]
        cases hfr : rest.reverse.find? (fun m => decide (m.name = "matrix")) with
        | none => simp [hm]
        | some mm => simp [hm]
      · rw [if_neg hm, ih]
        have hfm : List.find? (fun m => decide (m.name = "matrix")) [m] = none := by
          simp [List.find?_cons, hm]
        rw [hfm]
        simp [hm, List.append_assoc]

lemma partitionMatrix_char (ms : List MethodCall) :
    partitionMatrix ms
      = (ms.any (fun m => m.name = "matrix"),
         (ms.reverse.find? fun m => m.name = "matrix").map MethodCall.options,
         ms.filter fun m => ¬ m.name = "matrix") := by
  unfold partitionMatrix
  rw [partitionMatrix_fold_char]
  simp

/-- The options of the last `"matrix"` call of a batch (the one the
separation pass retains). -/
def lastMatrixOptions (ms : List MethodCall) : List OptionEntry :=
  ((ms.reverse.find? fun m => m.name = "matrix").map MethodCall.options).getD []

/-- The non-matrix calls of a batch, in their original order. -/
def nonMatrixCalls (ms : List MethodCall) : List MethodCall :=
  ms.filter fun m => ¬ m.name = "matrix"

/-- C3: when a batch contains a `"matrix"` call, `executeMethods` first runs
the matrix materialization to completion (a matrix failure aborts the whole
batch before any other call executes), and only then executes every other
call of the batch, on the instance list re-read from the registry as
refreshed by the matrix step; the batch trace is the matrix trace followed
by the other calls' trace. -/
theorem c3_matrix_precedes_batch (st : PState) (instanceId : String)
    (ms : List MethodCall) (insts : List Instance)
    (hm : ms.any (fun m => m.name = "matrix") = true) :
    executeMethods st instanceId ms insts
      = (let um := updateMatrix st instanceId (lastMatrixOptions ms)
         match um.2.2 with
         | some err => (um.1, um.2.1, some err)
         | none =>
             let r2 := execOtherMethods um.1 (nonMatrixCalls ms)
               ((assocLookup um.1.activeModules instanceId).getD [])
             (r2.1, um.2.1 ++ r2.2.1, r2.2.2)) := by
  unfold executeMethods
  rw [partitionMatrix_char]
  simp only [hm, if_true]
  rfl

/-- Witness for `c3_matrix_precedes_batch` on a concrete two-call batch. -/
theorem c3_matrix_precedes_batch_witness :
    executeMethods tState "p1" [⟨"matrix", tMatrixOpts⟩, ⟨"show", []⟩] []
      = (let um := updateMatrix tState "p1"
           (lastMatrixOptions [⟨"matrix", tMatrixOpts⟩, ⟨"show", []⟩])
         match um.2.2 with
         | some err => (um.1, um.2.1, some err)
         | none =>
             let r2 := execOtherMethods um.1
               (nonMatrixCalls [⟨"matrix", tMatrixOpts⟩, ⟨"show", []⟩])
               ((assocLookup um.1.activeModules "p1").getD [])
             (r2.1, um.2.1 ++ r2.2.1, r2.2.2)) :=
  c3_matrix_precedes_batch tState "p1" _ [] (by decide)

/-- Whether an event is a matrix materialization. -/
def isMaterializedEv : Event → Bool
  | .materialized _ _ => true
  | _ => false

/-- The number of matrix materializations in a trace. -/
def countMaterialized (tr : List Event) : ℕ :=
  (tr.filter isMaterializedEv).length

lemma countMaterialized_append (t1 t2 : List Event) :
    countMaterialized (t1 ++ t2) = countMaterialized t1 + countMaterialized t2 := by
  unfold countMaterialized
  rw [List.filter_append, List.length_append]

lemma invokeAll_no_materialized (insts : List Instance) (name : String)
    (bag : List (String × JVal)) :
    countMaterialized (invokeAll insts name bag).1 = 0 := by
  induction insts with
  | nil => rfl
  | cons inst rest ih =>
      unfold invokeAll invokeInstance
      cases hb : methodBehavior inst name with
      | none =>
          simp only [hb]
          rw [countMaterialized_append, ih]
          rfl
      | some impl =>
          cases impl
          · simp only [hb]
            rw [countMaterialized_append, ih]
            rfl
          · simp only [hb]
            rfl

lemma execOtherMethods_no_materialized (ms : List MethodCall) (st : PState)
    (insts : List Instance) :
    countMaterialized (execOtherMethods st ms insts).2.1 = 0 := by
  induction ms generalizing st with
  | nil => rfl
  | cons m rest ih =>
      unfold execOtherMethods
      cases h : (execCall st m insts).2.2 with
      | some err =>
          simp only [h]
          exact invokeAll_no_materialized insts m.name _
      | none =>
          simp only [h]
          rw [countMaterialized_append, ih]
          show countMaterialized
            (invokeAll insts m.name (resolveCallOptions st m.options).2).1 + 0 = 0
          rw [invokeAll_no_materialized]

lemma matrixTeardownLoop_no_materialized (l : List Instance) :
    countMaterialized (matrixTeardownLoop l).1 = 0 := by
  induction l with
  | nil => rfl
  | cons inst rest ih =>
      unfold matrixTeardownLoop rawDestroy
      by_cases hd : exposes inst "destroy" = true
      · rw [if_pos hd]
        cases hb : methodBehavior inst "destroy" with
        | none =>
            simp only [hb]
            rw [countMaterialized_append, ih]
            rfl
        | some impl =>
            cases impl
            · simp only [hb]
              rw [countMaterialized_append, ih]
              rfl
            · simp only [hb]
              rfl
      · rw [if_neg hd]
        exact ih

lemma updateMatrix_count_materialized (st : PState) (instanceId : String)
    (opts : List OptionEntry) (t : Track) (mref : ModuleRef) (cls : ModuleClass)
    (hcont : st.containerPresent = true)
    (htrack : st.activeTrack = some t)
    (hfind : t.modules.find? (fun m => m.id = instanceId) = some mref)
    (hty : ¬ mref.type = "")
    (hteardown :
      (matrixTeardownLoop ((assocLookup st.activeModules instanceId).getD [])).2
        = none)
    (hcache : assocLookup st.moduleClassCache mref.type = some cls) :
    countMaterialized (updateMatrix st instanceId opts).2.1 = 1 := by
  rw [updateMatrix_normal st instanceId opts t mref cls hcont htrack hfind hty
    hteardown hcache]
  dsimp only
  by_cases hf :
      ((((assocLookup t.modulesData instanceId).bind
          PlacementData.ctorMethods).getD []).filter
        fun m => ¬ m.name = "matrix").length = 0
  · rw [if_pos hf]
    dsimp only
    rw [countMaterialized_append, countMaterialized_append,
      matrixTeardownLoop_no_materialized]
    rfl
  · rw [if_neg hf]
    dsimp only
    rw [countMaterialized_append, countMaterialized_append,
      countMaterialized_append, matrixTeardownLoop_no_materialized,
      execOtherMethods_no_materialized]
    rfl

/-- The batch with every `"matrix"` call removed except the last one. -/
def keepLastMatrix (ms : List MethodCall) : List MethodCall :=
  nonMatrixCalls ms ++
    ((ms.reverse.find? fun m => m.name = "matrix").elim [] fun mm => [mm])

lemma filter_not_matrix_idem (ms : List MethodCall) :
    ((ms.filter fun m => ¬ m.name = "matrix").filter
        fun m => ¬ m.name = "matrix")
      = ms.filter fun m => ¬ m.name = "matrix" := by
  rw [List.filter_filter]
  congr 1
  funext m
  rw [Bool.and_self]

/-- C10: a batch containing more than one `"matrix"` call behaves exactly
like the batch that keeps only the last of them — the earlier matrix calls'
options are discarded without effect — and, in normal operation, exactly one
matrix materialization is performed. -/
theorem c10_last_matrix_call_wins (st : PState) (instanceId : String)
    (ms : List MethodCall) (insts : List Instance)
    (t : Track) (mref : ModuleRef) (cls : ModuleClass)
    (h2 : 2 ≤ (ms.filter fun m => m.name = "matrix").length)
    (hcont : st.containerPresent = true)
    (htrack : st.activeTrack = some t)
    (hfind : t.modules.find? (fun m => m.id = instanceId) = some mref)
    (hty : ¬ mref.type = "")
    (hteardown :
      (matrixTeardownLoop ((assocLookup st.activeModules instanceId).getD [])).2
        = none)
    (hcache : assocLookup st.moduleClassCache mref.type = some cls) :
    executeMethods st instanceId ms insts
      = executeMethods st instanceId (keepLastMatrix ms) insts ∧
    countMaterialized (executeMethods st instanceId ms insts).2.1 = 1 := by
  have hany : ms.any (fun m => m.name = "matrix") = true := by
    have hlen : 0 < (ms.filter fun m => m.name = "matrix").length := by omega
    obtain ⟨x, hx⟩ := List.exists_mem_of_length_pos hlen
    obtain ⟨hmem, hp⟩ := List.mem_filter.mp hx
    exact List.any_eq_true.mpr ⟨x, hmem, hp⟩
  have hsome : (ms.reverse.find? fun m => m.name = "matrix").isSome := by
    rw [List.find?_isSome]
    obtain ⟨x, hmem, hp⟩ := List.any_eq_true.mp hany
    exact ⟨x, List.mem_reverse.mpr hmem, hp⟩
  obtain ⟨mm, hmm⟩ := Option.isSome_iff_exists.mp hsome
  have hpmm : mm.name = "matrix" := by
    have := List.find?_some hmm
    exact of_decide_eq_true this
  have hchar2 : partitionMatrix (keepLastMatrix ms)
      = (ms.any (fun m => m.name = "matrix"),
         (ms.reverse.find? fun m => m.name = "matrix").map MethodCall.options,
         ms.filter fun m => ¬ m.name = "matrix") := by
    rw [partitionMatrix_char]
    unfold keepLastMatrix nonMatrixCalls
    rw [hmm]
    simp only [Option.elim, Prod.mk.injEq]
    refine ⟨?_, ?_, ?_⟩
    · rw [List.any_append]
      simp [hany, hpmm]
    · rw [List.reverse_append]
      simp only [List.reverse_cons, List.reverse_nil, List.nil_append,
        List.singleton_append, List.find?_cons]
      rw [show (decide (mm.name = "matrix")) = true from decide_eq_true hpmm]
    · rw [List.filter_append, filter_not_matrix_idem]
      simp [hpmm]
  constructor
  · unfold executeMethods
    rw [partitionMatrix_char, hchar2]
  · unfold executeMethods
    rw [partitionMatrix_char]
    simp only [hany, if_true]
    have hcnt := updateMatrix_count_materialized st instanceId
      (((ms.reverse.find? fun m => m.name = "matrix").map
        MethodCall.options).getD [])
      t mref cls hcont htrack hfind hty hteardown hcache
    cases he : (updateMatrix st instanceId
        (((ms.reverse.find? fun m => m.name = "matrix").map
          MethodCall.options).getD [])).2.2 with
    | some err =>
        simp only [he]
        exact hcnt
    | none =>
        simp only [he]
        rw [countMaterialized_append, hcnt, execOtherMethods_no_materialized]

/-- Witness for `c10_last_matrix_call_wins` on a batch with two `"matrix"`
calls: only the last one's options are used and exactly one materialization
happens. -/
theorem c10_last_matrix_call_wins_witness :
    executeMethods tState "p1"
        [⟨"matrix", [⟨"matrix", JVal.mObj (some 5) (some 5) (some []), none, none⟩]⟩,
         ⟨"matrix", tMatrixOpts⟩] []
      = executeMethods tState "p1"
          (keepLastMatrix
            [⟨"matrix", [⟨"matrix", JVal.mObj (some 5) (some 5) (some []), none, none⟩]⟩,
             ⟨"matrix", tMatrixOpts⟩]) [] ∧
    countMaterialized
        (executeMethods tState "p1"
          [⟨"matrix", [⟨"matrix", JVal.mObj (some 5) (some 5) (some []), none, none⟩]⟩,
           ⟨"matrix", tMatrixOpts⟩] []).2.1 = 1 :=
  c10_last_matrix_call_wins tState "p1" _ [] tTrack ⟨"p1", "Mod"⟩ tCls
    (by decide) rfl rfl (by decide) (by decide) (by decide) (by decide)

/-- Whether a trace contains a successful-dispatch event of the given
method on the instance with the given tag. -/
def hasInvoked (tr : List Event) (tag : ℕ) (name : String) : Bool :=
  tr.any fun e =>
    match e with
    | .invoked t n _ => t = tag ∧ n = name
    | _ => false

/-- Whether a trace contains a missing-method warning for the given method
on the instance with the given tag. -/
def hasWarnMissing (tr : List Event) (tag : ℕ) (name : String) : Bool :=
  tr.any fun e =>
    match e with
    | .warnMissing t n => t = tag ∧ n = name
    | _ => false

lemma hasInvoked_append (t1 t2 : List Event) (tag : ℕ) (name : String) :
    hasInvoked (t1 ++ t2) tag name
      = (hasInvoked t1 tag name || hasInvoked t2 tag name) :=
  List.any_append

lemma hasWarnMissing_append (t1 t2 : List Event) (tag : ℕ) (name : String) :
    hasWarnMissing (t1 ++ t2) tag name
      = (hasWarnMissing t1 tag name || hasWarnMissing t2 tag name) :=
  List.any_append

lemma invokeAll_invoked_inv (insts : List Instance) (name : String)
    (bag : List (String × JVal)) (tag : ℕ) (nm : String)
    (h : hasInvoked (invokeAll insts name bag).1 tag nm = true) :
    ∃ inst ∈ insts, inst.tag = tag ∧ exposes inst nm = true := by
  induction insts with
  | nil => cases h
  | cons inst rest ih =>
      unfold invokeAll invokeInstance at h
      cases hb : methodBehavior inst name with
      | none =>
          rw [hb] at h
          dsimp only at h
          rw [show ([Event.warnMissing inst.tag name]
              ++ (invokeAll rest name bag).1)
            = Event.warnMissing inst.tag name :: (invokeAll rest name bag).1
            from rfl] at h
          unfold hasInvoked at h
          rw [List.any_cons] at h
          simp only [Bool.or_eq_true] at h
          rcases h with h | h
          · cases h
          · obtain ⟨inst2, hi2, ht2, he2⟩ := ih h
            exact ⟨inst2, List.mem_cons_of_mem _ hi2, ht2, he2⟩
      | some impl =>
          cases impl with
          | normal =>
              rw [hb] at h
              dsimp only at h
              rw [show ([Event.invoked inst.tag name bag]
                  ++ (invokeAll rest name bag).1)
                = Event.invoked inst.tag name bag :: (invokeAll rest name bag).1
                from rfl] at h
              unfold hasInvoked at h
              rw [List.any_cons] at h
              simp only [Bool.or_eq_true] at h
              rcases h with h | h
              · obtain ⟨h1, h2⟩ := of_decide_eq_true h
                refine ⟨inst, List.mem_cons_self _ _, h1, ?_⟩
                subst h2
                unfold exposes
                rw [hb]
                rfl
              · obtain ⟨inst2, hi2, ht2, he2⟩ := ih h
                exact ⟨inst2, List.mem_cons_of_mem _ hi2, ht2, he2⟩
          | throwing =>
              rw [hb] at h
              dsimp only at h
              unfold hasInvoked at h
              rw [List.any_cons] at h
              simp only [Bool.or_eq_true] at h
              rcases h with h | h
              · obtain ⟨h1, h2⟩ := of_decide_eq_true h
                refine ⟨inst, List.mem_cons_self _ _, h1, ?_⟩
                subst h2
                unfold exposes
                rw [hb]
                rfl
              · cases h


lemma execOtherMethods_invoked_inv (ms : List MethodCall) (st : PState)
    (insts : List Instance) (tag : ℕ) (nm : String)
    (h : hasInvoked (execOtherMethods st ms insts).2.1 tag nm = true) :
    ∃ inst ∈ insts, inst.tag = tag ∧ exposes inst nm = true := by
  induction ms generalizing st with
  | nil => cases h
  | cons m rest ih =>
      unfold execOtherMethods at h
      dsimp only at h
      cases he : (execCall st m insts).2.2 with
      | some err =>
          rw [he] at h
          dsimp only at h
          exact invokeAll_invoked_inv insts m.name _ tag nm h
      | none =>
          rw [he] at h
          dsimp only at h
          rw [hasInvoked_append] at h
          simp only [Bool.or_eq_true] at h
          rcases h with h1 | h2
          · exact invokeAll_invoked_inv insts m.name _ tag nm h1
          · exact ih _ h2

lemma invokeAll_no_throw (insts : List Instance) (name : String)
    (bag : List (String × JVal))
    (h : ∀ inst ∈ insts, methodBehavior inst name ≠ some MethodImpl.throwing) :
    invokeAll insts name bag
      = (insts.map fun inst =>
          if exposes inst name then Event.invoked inst.tag name bag
          else Event.warnMissing inst.tag name,
         none) := by
  induction insts with
  | nil => rfl
  | cons inst rest ih =>
      have hrest : ∀ i ∈ rest, methodBehavior i name ≠ some MethodImpl.throwing :=
        fun i hi => h i (List.mem_cons_of_mem _ hi)
      have hih := ih hrest
      unfold invokeAll invokeInstance
      cases hb : methodBehavior inst name with
      | none =>
          dsimp only
          rw [hih]
          have hexp : exposes inst name = false := by
            unfold exposes
            rw [hb]
            rfl
          rw [List.map_cons, hexp]
          rfl
      | some impl =>
          cases impl with
          | normal =>
              dsimp only
              rw [hih]
              have hexp : exposes inst name = true := by
                unfold exposes
                rw [hb]
                rfl
              rw [List.map_cons, hexp]
              rfl
          | throwing =>
              exact absurd hb (h inst (List.mem_cons_self _ _))

lemma execCall_no_throw (st : PState) (m : MethodCall) (insts : List Instance)
    (h : ∀ inst ∈ insts, methodBehavior inst m.name ≠ some MethodImpl.throwing) :
    execCall st m insts
      = ((resolveCallOptions st m.options).1,
         insts.map fun inst =>
           if exposes inst m.name then
             Event.invoked inst.tag m.name (resolveCallOptions st m.options).2
           else Event.warnMissing inst.tag m.name,
         none) := by
  unfold execCall
  dsimp only
  rw [invokeAll_no_throw insts m.name _ h]

lemma mapped_trace_hasInvoked (insts : List Instance) (name : String)
    (bag : List (String × JVal)) (inst0 : Instance) (hmem : inst0 ∈ insts)
    (hexp : exposes inst0 name = true) :
    hasInvoked
      (insts.map fun inst =>
        if exposes inst name then Event.invoked inst.tag name bag
        else Event.warnMissing inst.tag name) inst0.tag name = true := by
  unfold hasInvoked
  refine List.any_eq_true.mpr ⟨_, List.mem_map_of_mem _ hmem, ?_⟩
  simp [hexp]

lemma mapped_trace_hasWarnMissing (insts : List Instance) (name : String)
    (bag : List (String × JVal)) (inst0 : Instance) (hmem : inst0 ∈ insts)
    (hexp : exposes inst0 name = false) :
    hasWarnMissing
      (insts.map fun inst =>
        if exposes inst name then Event.invoked inst.tag name bag
        else Event.warnMissing inst.tag name) inst0.tag name = true := by
  unfold hasWarnMissing
  refine List.any_eq_true.mpr ⟨_, List.mem_map_of_mem _ hmem, ?_⟩
  simp [hexp]

lemma execOtherMethods_no_throw_pos (ms : List MethodCall) (st : PState)
    (insts : List Instance)
    (hthrow : ∀ m ∈ ms, ∀ inst ∈ insts,
      methodBehavior inst m.name ≠ some MethodImpl.throwing) :
    (execOtherMethods st ms insts).2.2 = none ∧
    ∀ m ∈ ms, ∀ inst ∈ insts,
      (exposes inst m.name = true →
        hasInvoked (execOtherMethods st ms insts).2.1 inst.tag m.name = true) ∧
      (exposes inst m.name = false →
        hasWarnMissing (execOtherMethods st ms insts).2.1 inst.tag m.name
          = true) := by
  induction ms generalizing st with
  | nil =>
      refine ⟨rfl, ?_⟩
      intro m hm
      cases hm
  | cons mc rest ih =>
      have hthrow_head : ∀ inst ∈ insts,
          methodBehavior inst mc.name ≠ some MethodImpl.throwing :=
        fun inst hi => hthrow mc (List.mem_cons_self _ _) inst hi
      have hthrow_rest : ∀ m ∈ rest, ∀ inst ∈ insts,
          methodBehavior inst m.name ≠ some MethodImpl.throwing :=
        fun m hm inst hi => hthrow m (List.mem_cons_of_mem _ hm) inst hi
      have hcall := execCall_no_throw st mc insts hthrow_head
      obtain ⟨iherr, ihpos⟩ := ih (resolveCallOptions st mc.options).1 hthrow_rest
      unfold execOtherMethods
      dsimp only
      rw [hcall]
      dsimp only
      refine ⟨iherr, ?_⟩
      intro m hm inst hinst
      rcases List.mem_cons.mp hm with hmc | hm2
      · subst hmc
        constructor
        · intro hexp
          rw [hasInvoked_append]
          rw [mapped_trace_hasInvoked insts m.name _ inst hinst hexp]
          rfl
        · intro hexp
          rw [hasWarnMissing_append]
          rw [mapped_trace_hasWarnMissing insts m.name _ inst hinst hexp]
          rfl
      · constructor
        · intro hexp
          rw [hasInvoked_append]
          rw [((ihpos m hm2 inst hinst).1 hexp)]
          rw [Bool.or_true]
        · intro hexp
          rw [hasWarnMissing_append]
          rw [((ihpos m hm2 inst hinst).2 hexp)]
          rw [Bool.or_true]

/-- C9: in a batch whose reachable methods never throw, an instance that
does not expose a call's method is skipped with a logged warning — it is
never dispatched — while the call is dispatched on every instance that does
expose the method, and the whole batch completes without error. -/
theorem c9_missing_method_skipped (ms : List MethodCall) (st : PState)
    (insts : List Instance)
    (hthrow : ∀ m ∈ ms, ∀ inst ∈ insts,
      methodBehavior inst m.name ≠ some MethodImpl.throwing)
    (htags : (insts.map Instance.tag).Nodup) :
    (execOtherMethods st ms insts).2.2 = none ∧
    ∀ m ∈ ms, ∀ inst ∈ insts,
      (exposes inst m.name = false →
        hasWarnMissing (execOtherMethods st ms insts).2.1 inst.tag m.name
          = true ∧
        hasInvoked (execOtherMethods st ms insts).2.1 inst.tag m.name
          = false) ∧
      (exposes inst m.name = true →
        hasInvoked (execOtherMethods st ms insts).2.1 inst.tag m.name
          = true) := by
  obtain ⟨herr, hpos⟩ := execOtherMethods_no_throw_pos ms st insts hthrow
  refine ⟨herr, ?_⟩
  intro m hm inst hinst
  refine ⟨fun hexp => ⟨(hpos m hm inst hinst).2 hexp, ?_⟩,
    fun hexp => (hpos m hm inst hinst).1 hexp⟩
  cases hI : hasInvoked (execOtherMethods st ms insts).2.1 inst.tag m.name with
  | false => rfl
  | true =>
      obtain ⟨inst2, hmem2, htag2, hexp2⟩ :=
        execOtherMethods_invoked_inv ms st insts inst.tag m.name hI
      have heq : inst2 = inst :=
        List.inj_on_of_nodup_map htags hmem2 hinst htag2
      rw [heq] at hexp2
      rw [hexp2] at hexp
      cases hexp

/-- Witness for `c9_missing_method_skipped`: a `"hide"` call on two
instances of which only the first exposes `hide` warns on the second and
dispatches on the first. -/
theorem c9_missing_method_skipped_witness :
    (execOtherMethods tState [⟨"hide", []⟩]
      [⟨1, [("hide", MethodImpl.normal)], ⟨1, 1, 0, 0, 0, 0, 1, false⟩⟩,
       ⟨2, [("show", MethodImpl.normal)], ⟨1, 2, 0, 0, 0, 0, 1, false⟩⟩]).2.2
      = none ∧
    ∀ m ∈ [(⟨"hide", []⟩ : MethodCall)],
      ∀ inst ∈ [(⟨1, [("hide", MethodImpl.normal)], ⟨1, 1, 0, 0, 0, 0, 1, false⟩⟩ : Instance),
                ⟨2, [("show", MethodImpl.normal)], ⟨1, 2, 0, 0, 0, 0, 1, false⟩⟩],
        (exposes inst m.name = false →
          hasWarnMissing
            (execOtherMethods tState [⟨"hide", []⟩]
              [⟨1, [("hide", MethodImpl.normal)], ⟨1, 1, 0, 0, 0, 0, 1, false⟩⟩,
               ⟨2, [("show", MethodImpl.normal)], ⟨1, 2, 0, 0, 0, 0, 1, false⟩⟩]).2.1
            inst.tag m.name = true ∧
          hasInvoked
            (execOtherMethods tState [⟨"hide", []⟩]
              [⟨1, [("hide", MethodImpl.normal)], ⟨1, 1, 0, 0, 0, 0, 1, false⟩⟩,
               ⟨2, [("show", MethodImpl.normal)], ⟨1, 2, 0, 0, 0, 0, 1, false⟩⟩]).2.1
            inst.tag m.name = false) ∧
        (exposes inst m.name = true →
          hasInvoked
            (execOtherMethods tState [⟨"hide", []⟩]
              [⟨1, [("hide", MethodImpl.normal)], ⟨1, 1, 0, 0, 0, 0, 1, false⟩⟩,
               ⟨2, [("show", MethodImpl.normal)], ⟨1, 2, 0, 0, 0, 0, 1, false⟩⟩]).2.1
            inst.tag m.name = true) :=
  c9_missing_method_skipped [⟨"hide", []⟩] tState
    [⟨1, [("hide", MethodImpl.normal)], ⟨1, 1, 0, 0, 0, 0, 1, false⟩⟩,
     ⟨2, [("show", MethodImpl.normal)], ⟨1, 2, 0, 0, 0, 0, 1, false⟩⟩]
    (by decide) (by decide)

/-- Whether a trace records a successful destroy of the given tag. -/
def hasDestroyed (tr : List Event) (tag : ℕ) : Bool :=
  tr.any fun e =>
    match e with
    | .destroyed t => t = tag
    | _ => false

/-- Whether a trace records any caught-and-logged destroy failure. -/
def hasDestroyErrorLogged (tr : List Event) : Bool :=
  tr.any fun e =>
    match e with
    | .destroyErrorLogged _ _ => true
    | _ => false

/-- An instance whose `destroy` throws, for concrete teardown scenarios. -/
def throwerInst : Instance :=
  ⟨1, [("destroy", MethodImpl.throwing)], ⟨1, 1, 0, 0, 0, 0, 1, false⟩⟩

/-- An instance whose `destroy` succeeds, for concrete teardown
scenarios. -/
def normalInst : Instance :=
  ⟨2, [("destroy", MethodImpl.normal)], ⟨1, 2, 0, 0, 0, 0, 1, false⟩⟩

/-- A concrete state whose placement `p1` holds a throwing-destroy instance
followed by a well-behaved one. -/
def c4State : PState :=
  { tState with activeModules := [("p1", [throwerInst, normalInst])] }

/-- C4 counterexample to the claim as stated: in the teardown at the start
of re-materialization (`updateMatrix`), a `destroy` that throws on the first
instance is not caught — the error escapes the batch, nothing is logged, and
the second instance's `destroy` is never called. -/
theorem c4_counterexample :
    (updateMatrix c4State "p1" []).2.2 = some () ∧
    hasDestroyed (updateMatrix c4State "p1" []).2.1 2 = false ∧
    hasDestroyErrorLogged (updateMatrix c4State "p1" []).2.1 = false := by
  decide

lemma matrixTeardownLoop_throws (insts : List Instance)
    (h : ∃ inst ∈ insts,
      methodBehavior inst "destroy" = some MethodImpl.throwing) :
    (matrixTeardownLoop insts).2 = some () := by
  induction insts with
  | nil =>
      obtain ⟨w, hw, _⟩ := h
      cases hw
  | cons inst rest ih =>
      unfold matrixTeardownLoop
      by_cases hd : exposes inst "destroy" = true
      · rw [if_pos hd]
        unfold rawDestroy
        cases hb : methodBehavior inst "destroy" with
        | none =>
            dsimp only
            apply ih
            obtain ⟨w, hw, hwt⟩ := h
            rcases List.mem_cons.mp hw with rfl | hw2
            · rw [hb] at hwt
              cases hwt
            · exact ⟨w, hw2, hwt⟩
        | some impl =>
            cases impl with
            | normal =>
                dsimp only
                apply ih
                obtain ⟨w, hw, hwt⟩ := h
                rcases List.mem_cons.mp hw with rfl | hw2
                · rw [hb] at hwt
                  cases hwt
                · exact ⟨w, hw2, hwt⟩
            | throwing => rfl
      · rw [if_neg hd]
        apply ih
        obtain ⟨w, hw, hwt⟩ := h
        rcases List.mem_cons.mp hw with rfl | hw2
        · unfold exposes at hd
          rw [hwt] at hd
          cases hd rfl
        · exact ⟨w, hw2, hwt⟩

/-- C4 amended: in track deactivation every per-instance `destroy` failure
is caught and logged against the placement and the teardown continues over
the whole registry (`deactivateActiveTrack` always performs the full guarded
loop); in the re-materialization teardown inside `updateMatrix`, however,
the loop is unguarded — one throwing `destroy` makes the whole teardown
throw. -/
theorem c4_destroy_isolation :
    (∀ (instanceId : String) (insts : List Instance), ∀ inst ∈ insts,
      (methodBehavior inst "destroy" = some MethodImpl.throwing →
        Event.destroyErrorLogged instanceId inst.tag
          ∈ deactivateDestroyLoop instanceId insts) ∧
      (methodBehavior inst "destroy" = some MethodImpl.normal →
        Event.destroyed inst.tag ∈ deactivateDestroyLoop instanceId insts)) ∧
    (∀ st : PState, st.activeTrack.isSome = true → st.isDeactivating = false →
      st.containerPresent = true →
      (deactivateActiveTrack st).2
        = st.activeModules.flatMap fun p => deactivateDestroyLoop p.1 p.2) ∧
    (∀ insts : List Instance,
      (∃ inst ∈ insts,
        methodBehavior inst "destroy" = some MethodImpl.throwing) →
      (matrixTeardownLoop insts).2 = some ()) := by
  refine ⟨?_, ?_, matrixTeardownLoop_throws⟩
  · intro instanceId insts inst hmem
    constructor
    · intro hb
      refine List.mem_flatMap.mpr ⟨inst, hmem, ?_⟩
      have hexp : exposes inst "destroy" = true := by
        unfold exposes
        rw [hb]
        rfl
      rw [if_pos hexp]
      unfold rawDestroy
      rw [hb]
      dsimp only
      exact List.mem_append_right _ (List.mem_singleton.mpr rfl)
    · intro hb
      refine List.mem_flatMap.mpr ⟨inst, hmem, ?_⟩
      have hexp : exposes inst "destroy" = true := by
        unfold exposes
        rw [hb]
        rfl
      rw [if_pos hexp]
      unfold rawDestroy
      rw [hb]
      dsimp only
      exact List.mem_singleton.mpr rfl
  · intro st hsome hdeact hcont
    have h1 : ¬ (st.activeTrack.isNone = true ∨ st.isDeactivating = true) := by
      rintro (hcon | hcon)
      · rw [Option.isNone_iff_eq_none] at hcon
        rw [hcon] at hsome
        cases hsome
      · rw [hcon] at hdeact
        cases hdeact
    unfold deactivateActiveTrack
    rw [if_neg h1, hcont]
    simp

/-- Witness for `c4_destroy_isolation` on concrete instances: the guarded
deactivation loop logs the thrower and destroys its sibling, and the
unguarded matrix teardown propagates the throw. -/
theorem c4_destroy_isolation_witness :
    Event.destroyErrorLogged "p1" 1
      ∈ deactivateDestroyLoop "p1" [throwerInst, normalInst] ∧
    Event.destroyed 2 ∈ deactivateDestroyLoop "p1" [throwerInst, normalInst] ∧
    (matrixTeardownLoop [throwerInst]).2 = some () :=
  ⟨(c4_destroy_isolation.1 "p1" [throwerInst, normalInst] throwerInst
      (by decide)).1 (by decide),
   (c4_destroy_isolation.1 "p1" [throwerInst, normalInst] normalInst
      (by decide)).2 (by decide),
   c4_destroy_isolation.2.2 [throwerInst] ⟨throwerInst, by decide, by decide⟩⟩

/-- C2 corrected: selecting a track name absent from the configuration is
logged and never throws, but it does not leave the state untouched — it
falls through to `deactivateActiveTrack`, clearing the active track, its
live instances and the channel handler map; only when no track is active is
it a true no-op. -/
theorem c2_unknown_track (st : PState) (name : String)
    (h : st.userData.find? (fun t => t.name = name) = none) :
    handleTrackSelection st name
      = ((deactivateActiveTrack st).1,
         Event.trackNotFound name :: (deactivateActiveTrack st).2) ∧
    (st.activeTrack = none → (handleTrackSelection st name).1 = st) := by
  constructor
  · unfold handleTrackSelection
    rw [h]
  · intro hnone
    unfold handleTrackSelection
    rw [h]
    dsimp only
    unfold deactivateActiveTrack
    rw [if_pos]
    left
    rw [hnone]
    rfl

/-- C2 counterexample to the claim as stated: with track `"Intro"` active,
selecting the unknown name `"ghost"` deactivates it — the active track and
the live-instance registry are not left unchanged. -/
theorem c2_counterexample :
    (handleTrackSelection tState "ghost").1.activeTrack = none ∧
    tState.activeTrack = some tTrack ∧
    (handleTrackSelection tState "ghost").1.activeChannelHandlers = [] ∧
    (handleTrackSelection tState "ghost").1.activeModules = [] ∧
    tState.activeModules = [("p1", [])] := by
  decide

/-- Witness for `c2_unknown_track` at the concrete state `tState` and the
unknown name `"ghost"`. -/
theorem c2_unknown_track_witness :
    handleTrackSelection tState "ghost"
      = ((deactivateActiveTrack tState).1,
         Event.trackNotFound "ghost" :: (deactivateActiveTrack tState).2) ∧
    (tState.activeTrack = none →
      (handleTrackSelection tState "ghost").1 = tState) :=
  c2_unknown_track tState "ghost" (by decide)

/-- Whether a placement's channel entries contain a non-empty method list
for the channel. -/
def hasNonEmptyEntry (entries : List (String × List MethodCall))
    (ch : String) : Bool :=
  entries.any fun e => e.1 = ch ∧ e.2.length ≠ 0

/-- Whether a placement's data maps the channel to a non-empty method
list. -/
def placementHasChannel (track : Track) (id ch : String) : Bool :=
  match assocLookup track.modulesData id with
  | some pd =>
      match pd.methods with
      | some entries => hasNonEmptyEntry entries ch
      | none => false
  | none => false

/-- JavaScript objects cannot repeat a key: every placement's channel map
has pairwise distinct channel numbers. -/
def trackNodupChannels (track : Track) : Bool :=
  track.modulesData.all fun p =>
    match p.2.methods with
    | some entries => (entries.map Prod.fst).Nodup
    | none => true

lemma hmBucket_hmPush (m : HandlerMap) (ch ch2 : String) (h : Handler) :
    hmBucket (hmPush m ch h) ch2
      = if ch2 = ch then hmBucket m ch2 ++ [h] else hmBucket m ch2 := by
  induction m with
  | nil =>
      by_cases hc : ch2 = ch
      · subst hc
        simp [hmPush, hmBucket, assocLookup]
      · rw [if_neg hc]
        simp only [hmPush, hmBucket, assocLookup, List.find?_cons,
          List.find?_nil]
        rw [show (decide (ch = ch2)) = false from
          decide_eq_false (fun hcon => hc hcon.symm)]
  | cons p rest ih =>
      rcases p with ⟨k, v⟩
      show hmBucket
          (if k = ch then (k, v ++ [h]) :: rest else (k, v) :: hmPush rest ch h)
          ch2 = _
      by_cases hk : k = ch
      · rw [if_pos hk]
        subst hk
        by_cases hc : ch2 = k
        · subst hc
          rw [if_pos rfl]
          simp [hmBucket, assocLookup]
        · rw [if_neg hc]
          unfold hmBucket assocLookup
          rw [List.find?_cons, List.find?_cons]
          rw [show (decide (k = ch2)) = false from
            decide_eq_false (fun hcon => hc hcon.symm)]
      · rw [if_neg hk]
        by_cases hc : ch2 = k
        · rw [if_neg (fun hcon => hk (hc.symm.trans hcon))]
          unfold hmBucket assocLookup
          rw [List.find?_cons, List.find?_cons]
          rw [show (decide (k = ch2)) = true from decide_eq_true hc.symm]
        · unfold hmBucket assocLookup
          rw [List.find?_cons, List.find?_cons]
          rw [show (decide (k = ch2)) = false from
            decide_eq_false (fun hcon => hc hcon.symm)]
          exact ih

lemma hasNonEmptyEntry_false_of_not_mem
    (entries : List (String × List MethodCall)) (ch : String)
    (h : ch ∉ entries.map Prod.fst) : hasNonEmptyEntry entries ch = false := by
  cases he : hasNonEmptyEntry entries ch with
  | false => rfl
  | true =>
      obtain ⟨e, hmem, hp⟩ := List.any_eq_true.mp he
      obtain ⟨h1, _⟩ := of_decide_eq_true hp
      exact absurd (h1 ▸ List.mem_map_of_mem Prod.fst hmem) h

lemma pushChannelEntries_bucket (entries : List (String × List MethodCall))
    (mp : HandlerMap) (h : Handler) (ch : String)
    (hnd : (entries.map Prod.fst).Nodup) :
    hmBucket (pushChannelEntries mp h entries) ch
      = hmBucket mp ch
        ++ (if hasNonEmptyEntry entries ch then [h] else []) := by
  induction entries generalizing mp with
  | nil => simp [pushChannelEntries, hasNonEmptyEntry]
  | cons e rest ih =>
      rw [List.map_cons] at hnd
      obtain ⟨hnot, hnd2⟩ := List.nodup_cons.mp hnd
      show hmBucket (pushChannelEntries
        (if e.2.length = 0 then mp else hmPush mp e.1 h) h rest) ch = _
      by_cases hz : e.2.length = 0
      · rw [if_pos hz, ih _ hnd2]
        have hcons : hasNonEmptyEntry (e :: rest) ch
            = hasNonEmptyEntry rest ch := by
          unfold hasNonEmptyEntry
          rw [List.any_cons]
          rw [show (decide (e.1 = ch ∧ e.2.length ≠ 0)) = false from
            decide_eq_false (fun hcon => hcon.2 hz)]
          rw [Bool.false_or]
        rw [hcons]
      · rw [if_neg hz, ih _ hnd2, hmBucket_hmPush]
        by_cases hc : ch = e.1
        · rw [if_pos hc]
          have hrest : hasNonEmptyEntry rest ch = false := by
            apply hasNonEmptyEntry_false_of_not_mem
            rw [hc]
            exact hnot
          have hcons : hasNonEmptyEntry (e :: rest) ch = true := by
            unfold hasNonEmptyEntry
            rw [List.any_cons]
            rw [show (decide (e.1 = ch ∧ e.2.length ≠ 0)) = true from
              decide_eq_true ⟨hc.symm, hz⟩]
            rfl
          rw [hrest, hcons]
          simp
        · rw [if_neg hc]
          have hcons : hasNonEmptyEntry (e :: rest) ch
              = hasNonEmptyEntry rest ch := by
            unfold hasNonEmptyEntry
            rw [List.any_cons]
            rw [show (decide (e.1 = ch ∧ e.2.length ≠ 0)) = false from
              decide_eq_false (fun hcon => hc hcon.1.symm)]
            rw [Bool.false_or]
          rw [hcons]

lemma hmPush_buckets_nonempty (m : HandlerMap) (ch : String) (h : Handler)
    (hm : ∀ p ∈ m, p.2 ≠ []) : ∀ p ∈ hmPush m ch h, p.2 ≠ [] := by
  induction m with
  | nil =>
      intro p hp
      rcases List.mem_singleton.mp hp with rfl
      simp
  | cons q rest ih =>
      rcases q with ⟨k, v⟩
      intro p hp
      replace hp : p ∈ (if k = ch then (k, v ++ [h]) :: rest
        else (k, v) :: hmPush rest ch h) := hp
      by_cases hk : k = ch
      · rw [if_pos hk] at hp
        rcases List.mem_cons.mp hp with rfl | hp2
        · simp
        · exact hm p (List.mem_cons_of_mem _ hp2)
      · rw [if_neg hk] at hp
        rcases List.mem_cons.mp hp with rfl | hp2
        · exact hm _ (List.mem_cons_self _ _)
        · exact ih (fun q hq => hm q (List.mem_cons_of_mem _ hq)) p hp2

lemma pushChannelEntries_buckets_nonempty
    (entries : List (String × List MethodCall)) (mp : HandlerMap) (h : Handler)
    (hm : ∀ p ∈ mp, p.2 ≠ []) :
    ∀ p ∈ pushChannelEntries mp h entries, p.2 ≠ [] := by
  induction entries generalizing mp with
  | nil => exact hm
  | cons e rest ih =>
      show ∀ p ∈ pushChannelEntries
        (if e.2.length = 0 then mp else hmPush mp e.1 h) h rest, p.2 ≠ []
      by_cases hz : e.2.length = 0
      · rw [if_pos hz]
        exact ih mp hm
      · rw [if_neg hz]
        exact ih _ (hmPush_buckets_nonempty mp e.1 h hm)

lemma nodup_of_lookup (track : Track) (h : trackNodupChannels track = true)
    (id : String) (pd : PlacementData)
    (entries : List (String × List MethodCall))
    (h1 : assocLookup track.modulesData id = some pd)
    (h2 : pd.methods = some entries) :
    (entries.map Prod.fst).Nodup := by
  unfold assocLookup at h1
  rcases hf : track.modulesData.find? (fun p => p.1 = id) with _ | q
  · rw [hf] at h1
    cases h1
  · rw [hf] at h1
    replace h1 : q.2 = pd := Option.some.inj h1
    have hmem := List.mem_of_find?_eq_some hf
    have hstep := List.all_eq_true.mp h q hmem
    rw [h1, h2] at hstep
    exact of_decide_eq_true hstep

lemma buildCHM_fold (track : Track) (hnd : trackNodupChannels track = true)
    (mods : List ModuleRef) (mp : HandlerMap) (ch : String) :
    hmBucket
      (mods.foldl
        (fun mp m =>
          match assocLookup track.modulesData m.id with
          | none => mp
          | some pd =>
              match pd.methods with
              | none => mp
              | some entries => pushChannelEntries mp ⟨m.id, m.type⟩ entries)
        mp) ch
      = hmBucket mp ch
        ++ (mods.filter fun m => placementHasChannel track m.id ch).map
            (fun m => (⟨m.id, m.type⟩ : Handler)) := by
  induction mods generalizing mp with
  | nil =>
      rw [List.foldl_nil, List.filter_nil, List.map_nil, List.append_nil]
  | cons m rest ih =>
      rw [List.foldl_cons, List.filter_cons]
      cases hl : assocLookup track.modulesData m.id with
      | none =>
          have hph : placementHasChannel track m.id ch = false := by
            unfold placementHasChannel
            rw [hl]
          rw [hph]
          dsimp only
          exact ih mp
      | some pd =>
          dsimp only
          cases hm2 : pd.methods with
          | none =>
              dsimp only
              have hph : placementHasChannel track m.id ch = false := by
                unfold placementHasChannel
                rw [hl]
                dsimp only
                rw [hm2]
              rw [hph]
              simp only [Bool.false_eq_true, if_false]
              exact ih mp
          | some entries =>
              dsimp only
              have hph : placementHasChannel track m.id ch
                  = hasNonEmptyEntry entries ch := by
                unfold placementHasChannel
                rw [hl]
                dsimp only
                rw [hm2]
              rw [hph]
              rw [ih (pushChannelEntries mp ⟨m.id, m.type⟩ entries)]
              rw [pushChannelEntries_bucket entries mp _ ch
                (nodup_of_lookup track hnd m.id pd entries hl hm2)]
              by_cases hne : hasNonEmptyEntry entries ch = true
              · rw [hne]
                simp
              · rw [Bool.not_eq_true] at hne
                rw [hne]
                simp

lemma buildCHM_fold_nonempty (track : Track) (mods : List ModuleRef)
    (mp : HandlerMap) (hm : ∀ p ∈ mp, p.2 ≠ []) :
    ∀ p ∈ mods.foldl
        (fun mp m =>
          match assocLookup track.modulesData m.id with
          | none => mp
          | some pd =>
              match pd.methods with
              | none => mp
              | some entries => pushChannelEntries mp ⟨m.id, m.type⟩ entries)
        mp, p.2 ≠ [] := by
  induction mods generalizing mp with
  | nil => exact hm
  | cons m rest ih =>
      rw [List.foldl_cons]
      cases hl : assocLookup track.modulesData m.id with
      | none =>
          dsimp only
          exact ih mp hm
      | some pd =>
          dsimp only
          cases hm2 : pd.methods with
          | none =>
              dsimp only
              exact ih mp hm
          | some entries =>
              dsimp only
              exact ih _
                (pushChannelEntries_buckets_nonempty entries mp _ hm)

/-- C7: for every channel number, the Channel Handler Map built for a track
holds exactly the `{placementId, moduleType}` pairs of the placements whose
data maps that channel to a non-empty method list, in the track's placement
order; and no channel key is ever created with an empty target list, so
placements without channel methods appear under no channel. -/
theorem c7_channel_handler_map (track : Track)
    (hnd : trackNodupChannels track = true) :
    (∀ ch, hmBucket (buildChannelHandlerMap track) ch
        = (track.modules.filter fun m => placementHasChannel track m.id ch).map
            fun m => (⟨m.id, m.type⟩ : Handler)) ∧
    ∀ p ∈ buildChannelHandlerMap track, p.2 ≠ [] := by
  constructor
  · intro ch
    have h := buildCHM_fold track hnd track.modules [] ch
    unfold buildChannelHandlerMap
    rw [h]
    rfl
  · exact buildCHM_fold_nonempty track track.modules [] (by intro p hp; cases hp)

/-- The spec's worked example: `P1` maps channel `"3"` to one method, `P2`
has no channel methods. -/
def c7Track : Track :=
  ⟨"T", [⟨"p1", "Mod"⟩, ⟨"p2", "Oth"⟩],
   [("p1", ⟨none, some [("3", [⟨"methodA", []⟩])]⟩),
    ("p2", ⟨none, some []⟩)]⟩

/-- Witness for `c7_channel_handler_map` on the spec's worked example:
channel `"3"` targets exactly `P1`. -/
theorem c7_channel_handler_map_witness :
    hmBucket (buildChannelHandlerMap c7Track) "3"
      = [(⟨"p1", "Mod"⟩ : Handler)] := by
  have h := (c7_channel_handler_map c7Track (by decide)).1 "3"
  rw [h]
  decide

/-- C8: a failed lazy load is purged from the module class cache — the next
attempt for the same type performs the import again (and can succeed) —
while a successful load is cached and every later call returns the cached
class without re-importing. -/
theorem c8_load_failure_purged (st : PState) (ty : String)
    (cls cls2 : ModuleClass) (ir : Option ModuleClass)
    (hty : ¬ ty = "")
    (hmiss : assocLookup st.moduleClassCache ty = none) :
    (loadModuleClass st ty none).2 = LoadOutcome.failed ∧
    assocLookup (loadModuleClass st ty none).1.moduleClassCache ty = none ∧
    (loadModuleClass st ty none).1.importAttempts = st.importAttempts + 1 ∧
    (loadModuleClass (loadModuleClass st ty none).1 ty (some cls2)).2
      = LoadOutcome.loaded cls2 ∧
    (loadModuleClass (loadModuleClass st ty none).1 ty
        (some cls2)).1.importAttempts = st.importAttempts + 2 ∧
    (loadModuleClass st ty (some cls)).2 = LoadOutcome.loaded cls ∧
    assocLookup (loadModuleClass st ty (some cls)).1.moduleClassCache ty
      = some cls ∧
    loadModuleClass (loadModuleClass st ty (some cls)).1 ty ir
      = ((loadModuleClass st ty (some cls)).1, LoadOutcome.loaded cls) := by
  have h1 : loadModuleClass st ty none
      = ({ st with importAttempts := st.importAttempts + 1 },
         LoadOutcome.failed) := by
    unfold loadModuleClass
    rw [if_neg hty, hmiss]
  have h2 : loadModuleClass st ty (some cls)
      = ({ st with
            importAttempts := st.importAttempts + 1
            moduleClassCache := assocSet st.moduleClassCache ty cls },
         LoadOutcome.loaded cls) := by
    unfold loadModuleClass
    rw [if_neg hty, hmiss]
  have h3 : loadModuleClass ({ st with
        importAttempts := st.importAttempts + 1 } : PState) ty (some cls2)
      = ({ st with
            importAttempts := st.importAttempts + 1 + 1
            moduleClassCache := assocSet st.moduleClassCache ty cls2 },
         LoadOutcome.loaded cls2) := by
    unfold loadModuleClass
    rw [if_neg hty]
    rw [show assocLookup ({ st with
        importAttempts := st.importAttempts + 1 } : PState).moduleClassCache ty
      = none from hmiss]
  refine ⟨by rw [h1], ?_, by rw [h1], ?_, ?_, by rw [h2], ?_, ?_⟩
  · rw [h1]
    exact hmiss
  · rw [h1, h3]
  · rw [h1, h3]
  · rw [h2]
    exact assocLookup_assocSet_self st.moduleClassCache ty cls
  · rw [h2]
    exact loadModuleClass_cached _ ty cls ir hty
      (assocLookup_assocSet_self st.moduleClassCache ty cls)

/-- Witness for `c8_load_failure_purged` at the uncached type `"Other"` in
`tState`. -/
theorem c8_load_failure_purged_witness :
    (loadModuleClass tState "Other" none).2 = LoadOutcome.failed ∧
    assocLookup (loadModuleClass tState "Other" none).1.moduleClassCache
      "Other" = none ∧
    (loadModuleClass tState "Other" none).1.importAttempts
      = tState.importAttempts + 1 ∧
    (loadModuleClass (loadModuleClass tState "Other" none).1 "Other"
        (some tCls)).2 = LoadOutcome.loaded tCls ∧
    (loadModuleClass (loadModuleClass tState "Other" none).1 "Other"
        (some tCls)).1.importAttempts = tState.importAttempts + 2 ∧
    (loadModuleClass tState "Other" (some tCls)).2
      = LoadOutcome.loaded tCls ∧
    assocLookup (loadModuleClass tState "Other"
        (some tCls)).1.moduleClassCache "Other" = some tCls ∧
    loadModuleClass (loadModuleClass tState "Other" (some tCls)).1 "Other" none
      = ((loadModuleClass tState "Other" (some tCls)).1,
         LoadOutcome.loaded tCls) :=
  c8_load_failure_purged tState "Other" tCls tCls none (by decide) (by decide)

end NW
